import Mathlib

/-!
A shallow embedding of `router.go` of onebone/router.

Go strings are byte sequences and the matcher works on them byte by byte, so a
string is modelled as a list of bytes (`Nat`, each below 256).  Panics of the
Go runtime (an index out of range) are modelled by `none`.

* `isURLMatching` is the pattern matcher (`router.go`, lines 38-107).
* `Router`, `NewRouter`, `HandlePreprocess`, `HandleFunc`, `GetHandler`,
  `GetPaths`, `Preprocess`, `Route` are the router (lines 109-230).
* `Less`, `Swap`, `Len` are the methods of `routerSorter` (lines 232-255).
* `Clean`, `Rel` model Go's `path/filepath` (Unix), which `Less` calls, and
  `sortSort` models `sort.Sort` as the insertion sort which Go applies to slices
  of at most 12 elements.
-/

namespace Onebone

/-! ## Strings -/

/-- A Go string: a sequence of bytes. -/
abbrev Str := List Nat

/-- The bytes of an ASCII literal. -/
def str (s : String) : Str := s.toList.map Char.toNat

/-- The byte `'/'`. -/
abbrev slash : Nat := 47
/-- The byte `':'`. -/
abbrev colon : Nat := 58
/-- The byte `'*'`. -/
abbrev star : Nat := 42
/-- The byte `'.'`. -/
abbrev dot : Nat := 46

/-- The constant `wildcard = "*"` of `router.go`. -/
def wildcard : Str := [star]

/-- Go's conversion `string(b)` of a byte `b`: the UTF-8 encoding of the code
point `b`, one byte for ASCII and two bytes from `0x80` on. -/
def byteToString (b : Nat) : Str :=
  if b < 128 then [b] else [192 + b / 64, 128 + b % 64]

/-- Indexing `s[i]` with a Go `int` index; `none` is the index-out-of-range panic. -/
def byteAt (s : Str) (i : Int) : Option Nat :=
  if i < 0 then none else s[i.toNat]?

/-! ## Request parameters -/

/-- The map `Params map[string]string`, as an association list without
duplicate keys. -/
abbrev Params := List (Str × Str)

/-- The assignment `m[k] = v`. -/
def Params.set (m : Params) (k v : Str) : Params :=
  (k, v) :: m.filter (fun e => decide (e.1 ≠ k))

/-- The lookup `m[k]`, `none` when the key is absent. -/
def Params.get (m : Params) (k : Str) : Option Str :=
  m.lookup k

/-! ## The matcher `isURLMatching` -/

/-- The local variables of `isURLMatching` that live across loop iterations. -/
structure MatchState where
  /-- the pattern cursor `i` -/
  i : Int
  /-- the flag `wildcard` -/
  wildcard : Bool
  /-- the flag `param` -/
  param : Bool
  /-- the parameter name being read -/
  key : Str
  /-- the parameter value being read -/
  value : Str
  /-- the map `ret.Params` -/
  params : Params
deriving DecidableEq, Repr

/-- What one iteration of the loop over the bytes of the URL does. -/
inductive StepResult where
  /-- the iteration ends (normally or by `continue`) -/
  | next (st : MatchState)
  /-- the statement `return ret, false` -/
  | ret (params : Params)
  /-- an index out of range -/
  | fault
deriving DecidableEq, Repr

/-- The loop `for i++; i < length-1 && path[i] != '/'; i++ { key += string(path[i]) }`
after its init statement.  The first argument bounds the number of iterations;
it is called with `(length - 1 - i).toNat`, which the loop cannot exceed. -/
def keyLoop (path : Str) (length : Int) : Nat → Int → Str → Option (Int × Str)
  | 0, i, key => some (i, key)
  | fuel + 1, i, key =>
    if i < length - 1 then
      match byteAt path i with
      | none => none
      | some c =>
        if c ≠ slash then keyLoop path length fuel (i + 1) (key ++ byteToString c)
        else some (i, key)
    else some (i, key)

/-- The body of `for _, b = range []byte(url)` (lines 61-103). -/
def matchStep (path : Str) (st : MatchState) (b : Nat) : StepResult :=
  let length : Int := path.length
  -- if b == '/' { ... }
  let st1 : MatchState :=
    if b = slash then
      let i1 : Int := if st.wildcard ∧ st.i < length - 1 then st.i + 1 else st.i
      if st.param then
        { i := i1 - 1, wildcard := false, param := false, key := [], value := [],
          params := st.params.set st.key st.value }
      else
        { st with i := i1, wildcard := false }
    else st
  -- cur := i ; switch path[cur]
  let cur := st1.i
  match byteAt path cur with
  | none => StepResult.fault
  | some c =>
    let st2 : Option MatchState :=
      if c = colon then
        match keyLoop path length (length - 1 - (st1.i + 1)).toNat (st1.i + 1) st1.key with
        | none => none
        | some (i2, key2) =>
          some { st1 with i := i2, key := key2, param := true, wildcard := true }
      else if c = star then some { st1 with wildcard := true }
      else some st1
    match st2 with
    | none => StepResult.fault
    | some st2 =>
      -- if param { value += string(b) }
      let st3 : MatchState :=
        if st2.param then { st2 with value := st2.value ++ byteToString b } else st2
      -- if wildcard { continue }
      if st3.wildcard then StepResult.next st3
      else
        -- if i < length-1 { i++ }
        let st4 : MatchState := if st3.i < length - 1 then { st3 with i := st3.i + 1 } else st3
        -- if b != path[cur] { return ret, false }
        if b ≠ c then StepResult.ret st4.params else StepResult.next st4

/-- The loop over the bytes of `url` followed by `return ret, path[i] == b`;
the last argument is the variable `b`. -/
def matchLoop (path : Str) : Str → MatchState → Nat → Option (Params × Bool)
  | [], st, b =>
    match byteAt path st.i with
    | none => none
    | some c => some (st.params, decide (c = b))
  | x :: xs, st, _ =>
    match matchStep path st x with
    | StepResult.next st1 => matchLoop path xs st1 x
    | StepResult.ret params => some (params, false)
    | StepResult.fault => none

/-- The state in which the loop of `isURLMatching` starts. -/
def MatchState.init : MatchState :=
  { i := 0, wildcard := false, param := false, key := [], value := [], params := [] }

/-- The function `isURLMatching(path, req)` where `url` is `req.URL.Path`: the
parameters of the returned `*Request` and the returned flag, or `none` when
the function panics. -/
def isURLMatching (path : Str) (url : Str) : Option (Params × Bool) :=
  if path = wildcard then some ([], true)
  else
    match url.getLast? with
    | none => none
    | some l =>
      let url1 := if l ≠ slash then url ++ [slash] else url
      matchLoop path url1 MatchState.init 0

/-! ## `path/filepath` (Unix): `Clean` and `Rel`

`routerSorter.Less` calls `filepath.Rel` of the Go standard library.  The two
functions below follow the library source for Unix: the volume name is empty,
the separator is `'/'` and `sameWord` is string equality.  A position `r` in a
string is represented by the part of the string from `r` on. -/

/-- The loop `for out.w > dotdot && !os.IsPathSeparator(out.index(out.w)) { out.w-- }`
of `Clean`, started at `w`; it returns the final `out.w`. -/
def backtrack (out : Str) (dotdot : Nat) : Nat → Nat
  | 0 => 0
  | w + 1 =>
    if w + 1 > dotdot ∧ out[w + 1]? ≠ some slash then backtrack out dotdot w else w + 1

/-- The loop `for r < n { switch ... }` of `Clean`.  The string argument is
`path[r:]`, `out` is the buffer written so far (`out.w` is its length), and the
first argument bounds the number of iterations (every iteration advances `r`). -/
def cleanLoop (rooted : Bool) : Nat → Str → Str → Nat → Str
  | 0, _, out, _ => out
  | _ + 1, [], out, _ => out
  | fuel + 1, c :: rest, out, dotdot =>
    if c = slash then
      -- empty path element
      cleanLoop rooted fuel rest out dotdot
    else if c = dot ∧ (rest = [] ∨ rest.head? = some slash) then
      -- . element
      cleanLoop rooted fuel rest out dotdot
    else if c = dot ∧ rest.head? = some dot ∧
        (rest.tail = [] ∨ rest.tail.head? = some slash) then
      -- .. element: remove to last separator
      if out.length > dotdot then
        cleanLoop rooted fuel rest.tail (out.take (backtrack out dotdot (out.length - 1))) dotdot
      else if !rooted then
        let out1 := (if out.length > 0 then out ++ [slash] else out) ++ [dot, dot]
        cleanLoop rooted fuel rest.tail out1 out1.length
      else
        cleanLoop rooted fuel rest.tail out dotdot
    else
      -- real path element: add slash if needed, copy element
      let out1 :=
        if (rooted ∧ out.length ≠ 1) ∨ (¬ rooted ∧ out.length ≠ 0) then out ++ [slash] else out
      cleanLoop rooted fuel ((c :: rest).dropWhile (fun x => decide (x ≠ slash)))
        (out1 ++ (c :: rest).takeWhile (fun x => decide (x ≠ slash))) dotdot

/-- Go's `filepath.Clean` on Unix. -/
def Clean (path : Str) : Str :=
  if path = [] then [dot]
  else
    let rooted : Bool := decide (path.head? = some slash)
    let out :=
      if rooted then cleanLoop rooted path.length path.tail [slash] 1
      else cleanLoop rooted path.length path [] 0
    if out.length = 0 then [dot] else out

/-- The loop of `Rel` that positions `base[b0:bi]` and `targ[t0:ti]` at the
first differing elements.  The arguments are `base[b0:]` and `targ[t0:]` at
the head of the loop (where `b0 = bi` and `t0 = ti`); the result is
`(base[b0:], targ[t0:], base[b0:bi])` when the loop is left. -/
def relLoop : Nat → Str → Str → Str × Str × Str
  | 0, b, t => (b, t, [])
  | fuel + 1, b, t =>
    if b ≠ [] ∧ t ≠ [] then
      let bc := b.takeWhile (fun x => decide (x ≠ slash))
      let tc := t.takeWhile (fun x => decide (x ≠ slash))
      if tc ≠ bc then (b, t, bc)
      else relLoop fuel ((b.drop bc.length).drop 1) ((t.drop tc.length).drop 1)
    else (b, t, [])

/-- Go's `filepath.Rel` on Unix; `none` is a non-nil error. -/
def Rel (basepath targpath : Str) : Option Str :=
  let base := Clean basepath
  let targ := Clean targpath
  if targ = base then some [dot]
  else
    let base := if base = [dot] then [] else base
    let baseSlashed : Bool := decide (base.head? = some slash)
    let targSlashed : Bool := decide (targ.head? = some slash)
    if baseSlashed ≠ targSlashed then none
    else
      match relLoop base.length base targ with
      | (b, t, bc) =>
        if bc = [dot, dot] then none
        else if b ≠ [] then
          -- base elements left: must go up before going down
          let seps := b.count slash
          some ([dot, dot] ++ (List.replicate seps [slash, dot, dot]).flatten ++
            (if t ≠ [] then slash :: t else []))
        else some t

/-! ## `routerSorter` and `sort.Sort` -/

/-- The body of `routerSorter.Less` on the two strings `r.paths[i]` and
`r.paths[j]`.  `rel[0]` is read only when `Rel` returned without error; on the
patterns that `HandleFunc` stores `Rel` does not return the empty string then
(theorem `Rel_ne_nil`), so the read does not panic. -/
def pathLess (a b : Str) : Bool :=
  if a = wildcard then false
  else
    match Rel a b with
    | none => true
    | some rel => decide (rel.head? = some dot)

/-- The method `routerSorter.Len`. -/
def Len (paths : List Str) : Nat := paths.length

/-- The method `routerSorter.Less`; `sort.Sort` calls it with indices below `Len`. -/
def Less (paths : List Str) (i j : Nat) : Bool :=
  pathLess (paths.getD i []) (paths.getD j [])

/-- The method `routerSorter.Swap`; `sort.Sort` calls it with indices below `Len`. -/
def Swap (paths : List Str) (i j : Nat) : List Str :=
  (paths.set i (paths.getD j [])).set j (paths.getD i [])

/-- The inner loop `for j := i; j > a && data.Less(j, j-1); j-- { data.Swap(j, j-1) }`
of Go's `insertionSort`, with `a = 0`. -/
def insertionInner : Nat → List Str → List Str
  | 0, paths => paths
  | j + 1, paths =>
    if Less paths (j + 1) j then insertionInner j (Swap paths (j + 1) j) else paths

/-- Go's `insertionSort(data, 0, n)`: `for i := 1; i < n; i++ { ... }`. -/
def insertionSort (paths : List Str) : List Str :=
  (List.range' 1 (Len paths - 1)).foldl (fun l i => insertionInner i l) paths

/-- The call `sort.Sort(sorter)` on a slice of at most 12 elements: `pdqsort`
then runs `insertionSort(data, 0, n)` and returns (its branch
`length <= maxInsertion`).  On a longer slice `sort.Sort` partitions first; that
part is not modelled, and of the result for more than 12 elements only the
fact that it is a permutation of the slice (the slice is changed by `Swap`
alone) is used.  What is stated of the order of `GetPaths` is stated for at
most 12 registrations. -/
def sortSort (paths : List Str) : List Str := insertionSort paths

/-! ## The router -/

/-- The part of `*http.Request` that the router reads: `req.URL.Path`. -/
structure HttpRequest where
  /-- the field `URL.Path` -/
  URLPath : Str
deriving DecidableEq, Repr

/-- The struct `Request`: the embedded `*http.Request` and `Params`. -/
structure Request where
  /-- the embedded `*http.Request` -/
  httpRequest : HttpRequest
  /-- the field `Params` -/
  Params : Params
deriving DecidableEq, Repr

/-- A route handler `func(res, req *Request, next func())`.  It acts on the
state `σ` of everything outside the router (the response writer included);
the flag tells whether it called `next`. -/
abbrev HandlerFunc (σ : Type) := σ → Request → σ × Bool

/-- An interceptor `func(res, req *http.Request, next func())`; the flag tells
whether it called `next`. -/
abbrev PreprocessFunc (σ : Type) := σ → HttpRequest → σ × Bool

/-- The struct `Router`.  The map `handlers` is an association list without
duplicate keys. -/
structure Router (σ : Type) where
  /-- the field `paths` -/
  paths : List Str
  /-- the field `handlers` -/
  handlers : List (Str × HandlerFunc σ)
  /-- the field `preprocess` -/
  preprocess : List (PreprocessFunc σ)
  /-- the field `sort`, which no function reads or writes -/
  sort : Bool

/-- The assignment `m[k] = h` on the map `handlers`. -/
def handlersSet {σ : Type} (m : List (Str × HandlerFunc σ)) (k : Str) (h : HandlerFunc σ) :
    List (Str × HandlerFunc σ) :=
  (k, h) :: m.filter (fun e => decide (e.1 ≠ k))

/-- The function `NewRouter`. -/
def NewRouter {σ : Type} : Router σ :=
  { paths := [], handlers := [], preprocess := [], sort := false }

/-- The method `Router.HandlePreprocess`. -/
def HandlePreprocess {σ : Type} (r : Router σ) (handler : PreprocessFunc σ) : Router σ :=
  { r with preprocess := r.preprocess ++ [handler] }

/-- The pattern that `Router.HandleFunc` stores for the argument `path`
(lines 149-159). -/
def normalize (path : Str) : Str :=
  let path1 := if path = [] then wildcard else path
  let path2 := if path1.getLast? ≠ some slash ∧ path1 ≠ wildcard then path1 ++ [slash] else path1
  if path2.head? ≠ some slash ∧ path2 ≠ wildcard then slash :: path2 else path2

/-- The method `Router.HandleFunc`. -/
def HandleFunc {σ : Type} (r : Router σ) (path : Str) (handler : HandlerFunc σ) : Router σ :=
  let path := normalize path
  { r with handlers := handlersSet r.handlers path handler, paths := sortSort (r.paths ++ [path]) }

/-- The method `Router.GetHandler`. -/
def GetHandler {σ : Type} (r : Router σ) (path : Str) : Option (HandlerFunc σ) :=
  r.handlers.lookup path

/-- The method `Router.GetPaths`. -/
def GetPaths {σ : Type} (r : Router σ) : List Str := r.paths

/-- What `Router.Preprocess` does: the state it leaves, the flag it returns and
the interceptors it called, by their index in `r.preprocess`, in call order. -/
structure PreprocessResult (σ : Type) where
  /-- the state after the call -/
  state : σ
  /-- the returned flag `con` -/
  con : Bool
  /-- the indices of the interceptors called -/
  called : List Nat

/-- The loop of `Router.Preprocess` from the interceptor with index `k` on. -/
def preprocessLoop {σ : Type} (req : HttpRequest) :
    List (PreprocessFunc σ) → Nat → Bool → σ → List Nat → PreprocessResult σ
  | [], _, con, s, called => { state := s, con := con, called := called }
  | f :: fs, k, _, s, called =>
    -- con = false; f(res, req, func() { con = true })
    let out := f s req
    if !out.2 then { state := out.1, con := false, called := called ++ [k] }
    else preprocessLoop req fs (k + 1) true out.1 (called ++ [k])

/-- The method `Router.Preprocess`. -/
def Preprocess {σ : Type} (r : Router σ) (s : σ) (req : HttpRequest) : PreprocessResult σ :=
  preprocessLoop req r.preprocess 0 true s []

/-- What `Router.Route` does: the state it leaves, the route handlers it
invoked (the pattern and the `Params` of the request passed), in call order,
and whether it panicked. -/
structure RouteResult (σ : Type) where
  /-- the state after the call -/
  state : σ
  /-- the handler invocations -/
  invoked : List (Str × Params)
  /-- whether the call ended in a panic -/
  fault : Bool

/-- The loop `for _, p := range r.paths` of `Router.Route`. -/
def routeLoop {σ : Type} (r : Router σ) (req : HttpRequest) :
    List Str → σ → List (Str × Params) → RouteResult σ
  | [], s, invoked => { state := s, invoked := invoked, fault := false }
  | p :: ps, s, invoked =>
    match isURLMatching p req.URLPath with
    | none => { state := s, invoked := invoked, fault := true }
    | some (params, ok) =>
      if !ok then routeLoop r req ps s invoked
      else
        match r.handlers.lookup p with
        | none => routeLoop r req ps s invoked
        | some f =>
          let out := f s { httpRequest := req, Params := params }
          if !out.2 then
            { state := out.1, invoked := invoked ++ [(p, params)], fault := false }
          else routeLoop r req ps out.1 (invoked ++ [(p, params)])

/-- The method `Router.Route`. -/
def Route {σ : Type} (r : Router σ) (s : σ) (req : HttpRequest) : RouteResult σ :=
  let pre := Preprocess r s req
  if pre.con then routeLoop r req r.paths pre.state []
  else { state := pre.state, invoked := [], fault := false }

/-- The router after the calls `HandleFunc(p, h)` for the pairs of `regs`, in
order, on a router made by `NewRouter`. -/
def registerAll {σ : Type} (regs : List (Str × HandlerFunc σ)) : Router σ :=
  regs.foldl (fun r e => HandleFunc r e.1 e.2) NewRouter

/-! ## Auxiliary definitions used in the proofs

Insertion sort as a function on lists. -/

/-- Insertion of `x` after a sorted prefix.  The prefix is given in reverse,
last element first: `x` moves over every `y` with `pathLess x y`. -/
def insRev (x : Str) : List Str → List Str
  | [] => [x]
  | y :: ys => if pathLess x y then y :: insRev x ys else x :: y :: ys

/-- The rest of the insertion sort, the sorted prefix given in reverse. -/
def isortRev : List Str → List Str → List Str
  | rp, [] => rp.reverse
  | rp, x :: rest => isortRev (insRev x rp) rest

/-! Cleaned rooted paths by their elements. -/

/-- The loop of `Clean` on a rooted path, with the bound its length. -/
def cleanRun (rest out : Str) : Str := cleanLoop true rest.length rest out 1

/-- The elements of a cleaned rooted path after one more path element. -/
def stepSeg (st : List Str) (seg : Str) : List Str :=
  if seg = [] ∨ seg = [dot] then st
  else if seg = [dot, dot] then st.dropLast
  else st ++ [seg]

/-- Path elements joined by `'/'`. -/
def inter : List Str → Str
  | [] => []
  | [a] => a
  | a :: b :: r => a ++ slash :: inter (b :: r)

/-- The rooted path with the given elements. -/
def render (st : List Str) : Str := slash :: inter st

/-- Path elements, each followed by `'/'`. -/
def joinSegs (ss : List Str) : Str := (ss.map (fun seg => seg ++ [slash])).flatten

/-- A path element of a cleaned path: not empty and without `'/'`. -/
def GoodSeg (seg : Str) : Prop := seg ≠ [] ∧ slash ∉ seg

/-- The elements of the cleaned form of the rooted path `"/" ++ joinSegs ss`. -/
def comps (ss : List Str) : List Str := ss.foldl stepSeg []

/-- What the loop of `Rel` leaves for two cleaned paths given by their elements. -/
def relSpec : List Str → List Str → Str × Str × Str
  | [], ts => ([], inter ts, [])
  | c :: bs, [] => (inter (c :: bs), [], [])
  | c :: bs, d :: ts => if d ≠ c then (inter (c :: bs), inter (d :: ts), c) else relSpec bs ts

/-! Stored patterns. -/

/-- A pattern with a leading and a trailing `'/'`. -/
def Rooted (p : Str) : Prop := p.head? = some slash ∧ p.getLast? = some slash

/-- What `HandleFunc` stores: the token `"*"` or a pattern with a leading and
a trailing `'/'`. -/
def Stored (p : Str) : Prop := p = wildcard ∨ Rooted p

/-! Invariants of the sorted sequence. -/

/-- In the reversed prefix every `"*"` comes first: in the sorted sequence
every `"*"` comes last. -/
def StarsFirst (rp : List Str) : Prop :=
  rp.Pairwise (fun u v => v = wildcard → u = wildcard)

/-- In the reversed prefix, an element is `"*"` or `Less` than every element
before it: in the sorted sequence, a pattern other than `"*"` is `Less` than
every pattern after it. -/
def LessAfter (rp : List Str) : Prop :=
  rp.Pairwise (fun u v => v = wildcard ∨ pathLess v u = true)

/-! Inputs of the examples. -/

/-- A route handler on the trivial state that calls `next`. -/
def passHandler : HandlerFunc Unit := fun s _ => (s, true)

/-- The router after `HandleFunc(p, passHandler)` for the patterns of `ps`, in
order, on a router made by `NewRouter`. -/
def registerPatterns (ps : List Str) : Router Unit :=
  registerAll (ps.map (fun p => (p, passHandler)))

/-! The loop body of the matcher in two parts, and the cursor invariant. -/

/-- The block `if b == '/' { ... }` at the head of the loop body. -/
def slashBlock (path : Str) (st : MatchState) (b : Nat) : MatchState :=
  if b = slash then
    let i1 : Int := if st.wildcard ∧ st.i < (path.length : Int) - 1 then st.i + 1 else st.i
    if st.param then
      { i := i1 - 1, wildcard := false, param := false, key := [], value := [],
        params := st.params.set st.key st.value }
    else
      { st with i := i1, wildcard := false }
  else st

/-- The loop body after the block `if b == '/' { ... }`. -/
def stepTail (path : Str) (st1 : MatchState) (b : Nat) : StepResult :=
  match byteAt path st1.i with
  | none => StepResult.fault
  | some c =>
    let st2 : Option MatchState :=
      if c = colon then
        match keyLoop path path.length ((path.length : Int) - 1 - (st1.i + 1)).toNat
            (st1.i + 1) st1.key with
        | none => none
        | some (i2, key2) =>
          some { st1 with i := i2, key := key2, param := true, wildcard := true }
      else if c = star then some { st1 with wildcard := true }
      else some st1
    match st2 with
    | none => StepResult.fault
    | some st2 =>
      let st3 : MatchState :=
        if st2.param then { st2 with value := st2.value ++ byteToString b } else st2
      if st3.wildcard then StepResult.next st3
      else
        let st4 : MatchState :=
          if st3.i < (path.length : Int) - 1 then { st3 with i := st3.i + 1 } else st3
        if b ≠ c then StepResult.ret st4.params else StepResult.next st4

/-- The cursor is inside the pattern, and past its first byte inside a capture. -/
def CursorOk (path : Str) (st : MatchState) : Prop :=
  0 ≤ st.i ∧ st.i ≤ (path.length : Int) - 1 ∧ (st.param = true → 1 ≤ st.i)

/-! Dispatch as the specification words it, and the routers that can be built. -/

/-- The patterns of `GetPaths` that match the request path, with the captured
parameters, in `GetPaths` order. -/
def matching (paths : List Str) (url : Str) : List (Str × Params) :=
  paths.filterMap (fun p =>
    match isURLMatching p url with
    | some (params, true) => some (p, params)
    | _ => none)

/-- Dispatch over the matching patterns: each handler is invoked with the
request and its parameters; dispatch goes on to the next one exactly when the
handler called its continuation. -/
def dispatch {σ : Type} (handlers : List (Str × HandlerFunc σ)) (req : HttpRequest) :
    List (Str × Params) → σ → List (Str × Params) → RouteResult σ
  | [], s, invoked => { state := s, invoked := invoked, fault := false }
  | (p, params) :: rest, s, invoked =>
    match handlers.lookup p with
    | none => dispatch handlers req rest s invoked
    | some f =>
      let out := f s { httpRequest := req, Params := params }
      if out.2 then dispatch handlers req rest out.1 (invoked ++ [(p, params)])
      else { state := out.1, invoked := invoked ++ [(p, params)], fault := false }

/-- The routers that the exported functions build. -/
inductive Reachable {σ : Type} : Router σ → Prop where
  | newRouter : Reachable NewRouter
  | handleFunc (r : Router σ) (p : Str) (h : HandlerFunc σ) :
      Reachable r → Reachable (HandleFunc r p h)
  | handlePreprocess (r : Router σ) (f : PreprocessFunc σ) :
      Reachable r → Reachable (HandlePreprocess r f)

/-- The order that the comparator fixes in a sequence of stored patterns:
every `"*"` comes after every other pattern, and an extension of a pattern by
path elements, none of them `.` or `..`, the first one not beginning with
`'.'`, comes before the pattern. -/
def SpecificFirst (ps : List Str) : Prop :=
  (∀ (i j : Nat) (p : Str), ps[i]? = some wildcard → ps[j]? = some p → p ≠ wildcard → j < i) ∧
  (∀ (A : Str) (segs : List Str), segs ≠ [] →
    (∀ s ∈ segs, s ≠ [] ∧ slash ∉ s ∧ s ≠ [dot] ∧ s ≠ [dot, dot]) →
    (∀ s, segs.head? = some s → s.head? ≠ some dot) →
    ∀ (i j : Nat), ps[i]? = some A → ps[j]? = some (A ++ joinSegs segs) → j < i)

/-! The interceptor chain. -/

/-- The state in which interceptor `j` of the chain `fs` is run when every
interceptor before it called its continuation. -/
def stateBefore {σ : Type} (fs : List (PreprocessFunc σ)) (req : HttpRequest) (s : σ)
    (j : Nat) : σ :=
  (fs.take j).foldl (fun s1 f => (f s1 req).1) s

/-- Whether interceptor `j` of the chain `fs` calls its continuation when it
is run after the interceptors before it (`true` past the end of the chain). -/
def continues {σ : Type} (fs : List (PreprocessFunc σ)) (req : HttpRequest) (s : σ)
    (j : Nat) : Bool :=
  match fs[j]? with
  | some f => (f (stateBefore fs req s j) req).2
  | none => true

/-! The cursor of the matcher. -/

/-- The values of the cursor at which the loop of `isURLMatching` reads
`path[cur]`, one for every iteration begun (after the decrement that closes a
capture), followed by the value at the final read `path[i]` when the loop runs
to its end. -/
def cursorReads (path : Str) : Str → MatchState → List Int
  | [], st => [st.i]
  | x :: xs, st =>
    (slashBlock path st x).i ::
      (match matchStep path st x with
       | StepResult.next st1 => cursorReads path xs st1
       | _ => [])

/-! Patterns made of literal and capture segments, with the path segment that
is put in the place of every capture. -/

/-- A segment of a pattern: a literal, or a capture `:name` together with the
string that the request path has in its place. -/
inductive PSeg where
  | lit (s : Str)
  | cap (name value : Str)

/-- The segment as written in the pattern. -/
def PSeg.pat : PSeg → Str
  | PSeg.lit s => s
  | PSeg.cap name _ => colon :: name

/-- The segment as written in the request path. -/
def PSeg.url : PSeg → Str
  | PSeg.lit s => s
  | PSeg.cap _ value => value

/-- A literal segment has none of `'/'`, `':'`, `'*'`; the name of a capture has
no `'/'`, the value is not empty and has no `'/'`, and both are ASCII. -/
def PSeg.Ok : PSeg → Prop
  | PSeg.lit s => slash ∉ s ∧ colon ∉ s ∧ star ∉ s
  | PSeg.cap name value =>
    slash ∉ name ∧ (∀ b ∈ name, b < 128) ∧ value ≠ [] ∧ slash ∉ value ∧ (∀ b ∈ value, b < 128)

/-- The pattern with the given segments. -/
def patternOf (segs : List PSeg) : Str := slash :: joinSegs (segs.map PSeg.pat)

/-- The request path with the given segments. -/
def urlOf (segs : List PSeg) : Str := slash :: joinSegs (segs.map PSeg.url)

/-- The assignments to `Params` that the captures make, in order. -/
def captureStep (m : Params) : PSeg → Params
  | PSeg.lit _ => m
  | PSeg.cap name value => m.set name value

/-- The map `Params` after the captures of the segments, from the map `m`. -/
def capturesFrom (m : Params) (segs : List PSeg) : Params := segs.foldl captureStep m

/-- The names of the captures of the segments. -/
def captureNames : List PSeg → List Str
  | [] => []
  | PSeg.lit _ :: rest => captureNames rest
  | PSeg.cap name _ :: rest => name :: captureNames rest

/-- A handler that does not call `next`. -/
def stopHandler : HandlerFunc Unit := fun s _ => (s, false)

/-- An interceptor that calls its continuation and counts the request. -/
def countInterceptor : PreprocessFunc Nat := fun s _ => (s + 1, true)

/-- An interceptor that calls its continuation unless the state is `1`. -/
def haltAtOne : PreprocessFunc Nat := fun s _ => (s, decide (s ≠ 1))

/-! ## The matcher on literal bytes -/

theorem byteAt_natCast (s : Str) (k : Nat) : byteAt s (k : Int) = s[k]? := by
  simp [byteAt]

/-- One iteration on a literal byte of the pattern, outside a capture or
wildcard region and before the last byte of the pattern: the cursor advances. -/
theorem matchStep_literal (path : Str) (k : Nat) (x : Nat) (key value : Str) (ps : Params)
    (hx : path[k]? = some x) (hc : x ≠ colon) (hs : x ≠ star) (hk : k + 1 < path.length) :
    matchStep path ⟨k, false, false, key, value, ps⟩ x
      = StepResult.next ⟨(k + 1 : Nat), false, false, key, value, ps⟩ := by
  have hk2 : (k : Int) < (path.length : Int) - 1 := by omega
  by_cases hsl : x = slash
  · subst hsl
    simp [matchStep, byteAt_natCast, hx, hk2]
  · simp [matchStep, byteAt_natCast, hx, hc, hs, hsl, hk2]

/-- The loop run on a literal stretch `lit` of the pattern that is followed by
at least one more pattern byte: the cursor moves over `lit`. -/
theorem matchLoop_literal (lit : Str) :
    ∀ (pre suf rest : Str) (key value : Str) (ps : Params) (b : Nat),
      suf ≠ [] → colon ∉ lit → star ∉ lit →
      matchLoop (pre ++ lit ++ suf) (lit ++ rest) ⟨(pre.length : Nat), false, false, key, value, ps⟩ b
        = matchLoop (pre ++ lit ++ suf) rest
            ⟨((pre.length + lit.length : Nat)), false, false, key, value, ps⟩ (lit.getLastD b) := by
  induction lit with
  | nil => intro pre suf rest key value ps b _ _ _; simp
  | cons x lit ih =>
    intro pre suf rest key value ps b hsuf hc hs
    have hx : (pre ++ x :: lit ++ suf)[pre.length]? = some x := by
      rw [List.append_assoc, List.getElem?_append_right (le_refl _)]; simp
    have hk : pre.length + 1 < (pre ++ x :: lit ++ suf).length := by
      have : 0 < suf.length := List.length_pos.mpr hsuf
      simp; omega
    have hxc : x ≠ colon := fun h => hc (by simp [h])
    have hxs : x ≠ star := fun h => hs (by simp [h])
    have hc2 : colon ∉ lit := fun h => hc (List.mem_cons_of_mem _ h)
    have hs2 : star ∉ lit := fun h => hs (List.mem_cons_of_mem _ h)
    have step := matchStep_literal (pre ++ x :: lit ++ suf) pre.length x key value ps hx hxc hxs hk
    have ih2 := ih (pre ++ [x]) suf rest key value ps x hsuf hc2 hs2
    have e1 : pre ++ [x] ++ lit ++ suf = pre ++ x :: lit ++ suf := by simp
    rw [e1] at ih2
    have e2 : (pre ++ [x]).length = pre.length + 1 := by simp
    have e3 : (pre ++ [x]).length + lit.length = pre.length + (x :: lit).length := by
      simp; omega
    rw [e2] at ih2
    show matchLoop _ (x :: (lit ++ rest)) _ _ = _
    rw [matchLoop, step]
    simp only []
    rw [ih2, List.getLastD_cons]
    congr 3
    simp; omega

/-- One iteration with the cursor on a `'*'` that is the last byte of the
pattern, outside a capture: the cursor stays and the wildcard region is open. -/
theorem matchStep_lastStar (path : Str) (n : Nat) (x : Nat) (w : Bool) (key value : Str)
    (ps : Params) (hn : path[n]? = some star) (hlen : n + 1 = path.length) :
    matchStep path ⟨n, w, false, key, value, ps⟩ x
      = StepResult.next ⟨n, true, false, key, value, ps⟩ := by
  have hk2 : ¬ (n : Int) < (path.length : Int) - 1 := by omega
  by_cases hsl : x = slash
  · subst hsl
    simp [matchStep, byteAt_natCast, hn, hk2]
  · simp [matchStep, byteAt_natCast, hn, hsl]

/-- With the cursor on a `'*'` that ends the pattern the loop consumes every
remaining byte and the final comparison is between `'*'` and the last byte read. -/
theorem matchLoop_lastStar (path : Str) (n : Nat) (hn : path[n]? = some star)
    (hlen : n + 1 = path.length) (rest : Str) :
    ∀ (w : Bool) (key value : Str) (ps : Params) (b : Nat),
      matchLoop path rest ⟨n, w, false, key, value, ps⟩ b
        = some (ps, decide (star = rest.getLastD b)) := by
  induction rest with
  | nil => intro w key value ps b; simp [matchLoop, byteAt_natCast, hn]
  | cons x rest ih =>
    intro w key value ps b
    rw [matchLoop, matchStep_lastStar path n x w key value ps hn hlen]
    simp only []
    rw [ih, List.getLastD_cons]

/-- A pattern that ends in `'*'` after a literal prefix matches no path that
starts with the prefix: the loop absorbs the rest of the path, and the final
comparison `path[i] == b` then compares `'*'` with the closing `'/'`. -/
theorem isURLMatching_trailing_star (lit rem : Str) (hhead : lit.head? = some slash)
    (hc : colon ∉ lit) (hs : star ∉ lit) :
    isURLMatching (lit ++ [star]) (lit ++ rem) = some ([], false) := by
  obtain ⟨x, lit1, rfl⟩ : ∃ x l, lit = x :: l := by
    cases lit with
    | nil => simp at hhead
    | cons x l => exact ⟨x, l, rfl⟩
  have hne : (x :: lit1) ++ [star] ≠ wildcard := by simp [wildcard]
  have hurl : ∀ u : Str, ((x :: lit1) ++ u).getLast? = some slash →
      matchLoop ((x :: lit1) ++ [star]) ((x :: lit1) ++ u) MatchState.init 0
        = some ([], false) := by
    intro u hu
    have h1 := matchLoop_literal (x :: lit1) [] [star] u [] [] [] 0 (by simp) hc hs
    simp only [List.nil_append, List.length_nil, Nat.zero_add] at h1
    show matchLoop _ _ ⟨((0 : Nat) : Int), false, false, [], [], []⟩ 0 = _
    rw [h1, matchLoop_lastStar _ (x :: lit1).length (by simp) (by simp)]
    have : u.getLastD ((x :: lit1).getLastD 0) = slash := by
      simp only [List.getLastD_eq_getLast?]
      rw [List.getLast?_append] at hu
      cases hul : u.getLast? with
      | none => rw [hul] at hu; simp at hu; simp [hu]
      | some z => rw [hul] at hu; simp at hu; simp [hu]
    rw [this]; rfl
  unfold isURLMatching
  rw [if_neg hne]
  cases hl : ((x :: lit1) ++ rem).getLast? with
  | none => simp at hl
  | some l =>
    by_cases hls : l = slash
    · subst hls
      simp only [ne_eq, not_true_eq_false, if_false]
      exact hurl rem hl
    · simp only [ne_eq, hls, not_false_eq_true, if_true]
      rw [List.append_assoc]
      exact hurl (rem ++ [slash]) (by rw [← List.append_assoc, List.getLast?_concat])

/-- A capture segment needs a path segment: after the literal prefix the path
is exhausted while the cursor is on the `':'`. -/
theorem isURLMatching_capture_needs_segment (lit name : Str)
    (hlast : lit.getLast? = some slash) (hc : colon ∉ lit) (hs : star ∉ lit) :
    isURLMatching (lit ++ colon :: name ++ [slash]) lit = some ([], false) := by
  have hne : lit ++ colon :: name ++ [slash] ≠ wildcard := by
    intro h
    have := congrArg List.length h
    simp [wildcard] at this
    omega
  unfold isURLMatching
  rw [if_neg hne, hlast]
  simp only [ne_eq, not_true_eq_false, if_false]
  have h1 := matchLoop_literal lit [] (colon :: name ++ [slash]) [] [] [] [] 0 (by simp) hc hs
  simp only [List.nil_append, List.length_nil, Nat.zero_add, List.append_nil] at h1
  show matchLoop _ _ ⟨((0 : Nat) : Int), false, false, [], [], []⟩ 0 = _
  rw [← List.append_assoc] at h1
  rw [h1]
  have hidx : (lit ++ colon :: name ++ [slash])[lit.length]? = some colon := by
    rw [List.append_assoc, List.getElem?_append_right (le_refl _)]; simp
  simp only [matchLoop, byteAt_natCast, hidx]
  simp [hlast]

/-! ## Index safety of the matcher -/

theorem matchStep_eq (path : Str) (st : MatchState) (b : Nat) :
    matchStep path st b = stepTail path (slashBlock path st b) b := rfl

theorem byteAt_some (path : Str) (i : Int) (h0 : 0 ≤ i) (h1 : i < path.length) :
    ∃ c, byteAt path i = some c ∧ path[i.toNat]? = some c := by
  have h2 : i.toNat < path.length := by omega
  refine ⟨path[i.toNat], ?_, ?_⟩
  · unfold byteAt
    rw [if_neg (by omega)]
    exact List.getElem?_eq_getElem h2
  · exact List.getElem?_eq_getElem h2

theorem keyLoop_safe (path : Str) : ∀ (fuel : Nat) (i : Int) (key : Str),
    0 ≤ i → i ≤ (path.length : Int) - 1 →
    ∃ i2 key2, keyLoop path path.length fuel i key = some (i2, key2) ∧ i ≤ i2 ∧
      i2 ≤ (path.length : Int) - 1 := by
  intro fuel
  induction fuel with
  | zero => intro i key _ h1; exact ⟨i, key, rfl, le_refl _, h1⟩
  | succ fuel ih =>
    intro i key h0 h1
    rw [keyLoop]
    by_cases hlt : i < (path.length : Int) - 1
    · rw [if_pos hlt]
      obtain ⟨c, hc, _⟩ := byteAt_some path i h0 (by omega)
      rw [hc]
      simp only []
      by_cases hs : c ≠ slash
      · rw [if_pos hs]
        obtain ⟨i2, key2, e, h2, h3⟩ := ih (i + 1) (key ++ byteToString c) (by omega) (by omega)
        exact ⟨i2, key2, e, by omega, h3⟩
      · rw [if_neg hs]
        exact ⟨i, key, rfl, le_refl _, h1⟩
    · rw [if_neg hlt]
      exact ⟨i, key, rfl, le_refl _, h1⟩

theorem slashBlock_ok (path : Str) (st : MatchState) (b : Nat) (h : CursorOk path st) :
    CursorOk path (slashBlock path st b) := by
  obtain ⟨h0, h1, h2⟩ := h
  unfold slashBlock CursorOk
  by_cases hb : b = slash
  · rw [if_pos hb]
    by_cases hp : st.param = true
    · have := h2 hp
      simp only [hp, if_true]
      split <;> simp <;> omega
    · have hp2 : st.param = false := by simpa using hp
      simp only [hp2, Bool.false_eq_true, if_false]
      split
      · exact ⟨by show 0 ≤ st.i + 1; omega, by show st.i + 1 ≤ _; omega, by intro h; exact absurd h (by simp [hp2])⟩
      · exact ⟨h0, h1, by intro h; exact absurd h (by simp [hp2])⟩
  · rw [if_neg hb]
    exact ⟨h0, h1, h2⟩

theorem getLast?_getElem? (path : Str) (x : Nat) (h : path.getLast? = some x) :
    path[path.length - 1]? = some x := by
  rw [List.getLast?_eq_getElem?] at h
  exact h

theorem stepTail_ok (path : Str) (st1 : MatchState) (b : Nat)
    (hlast : path.getLast? = some slash) (h : CursorOk path st1) :
    (∃ st2, stepTail path st1 b = StepResult.next st2 ∧ CursorOk path st2) ∨
    (∃ ps, stepTail path st1 b = StepResult.ret ps) := by
  obtain ⟨i, w, p, key, value, params⟩ := st1
  obtain ⟨h0, h1, h2⟩ := h
  simp only at h0 h1 h2
  obtain ⟨c, hc, hc2⟩ := byteAt_some path i h0 (by omega)
  have hl := getLast?_getElem? path slash hlast
  unfold stepTail
  simp only [hc]
  by_cases hcol : c = colon
  · have hi : i + 1 ≤ (path.length : Int) - 1 := by
      by_contra hcon
      have e : i.toNat = path.length - 1 := by omega
      rw [e, hl] at hc2
      have : slash = colon := by rw [← hcol]; exact Option.some.inj hc2
      exact absurd this (by decide)
    obtain ⟨i2, key2, e, h3, h4⟩ :=
      keyLoop_safe path ((path.length : Int) - 1 - (i + 1)).toNat (i + 1) key (by omega) hi
    left
    simp only [if_pos hcol, e, if_true]
    exact ⟨_, rfl, by show 0 ≤ i2; omega, h4, fun _ => by show 1 ≤ i2; omega⟩
  · simp only [if_neg hcol]
    by_cases hst : c = star
    · left
      simp only [if_pos hst]
      cases p <;> simp only [Bool.false_eq_true, if_false, if_true] <;>
        exact ⟨_, rfl, h0, h1, h2⟩
    · simp only [if_neg hst]
      cases p <;> cases w <;> simp only [Bool.false_eq_true, if_false, if_true]
      all_goals first
        | (left; exact ⟨_, rfl, h0, h1, h2⟩)
        | (by_cases hbc : b ≠ c
           · right; rw [if_pos hbc]; exact ⟨_, rfl⟩
           · left; rw [if_neg hbc]
             refine ⟨_, rfl, ?_⟩
             split
             · exact ⟨by show 0 ≤ i + 1; omega, by show i + 1 ≤ _; omega,
                 fun hp => by have := h2 hp; show 1 ≤ i + 1; omega⟩
             · exact ⟨h0, h1, h2⟩)

theorem matchStep_ok (path : Str) (st : MatchState) (b : Nat)
    (hlast : path.getLast? = some slash) (h : CursorOk path st) :
    (∃ st2, matchStep path st b = StepResult.next st2 ∧ CursorOk path st2) ∨
    (∃ ps, matchStep path st b = StepResult.ret ps) := by
  rw [matchStep_eq]
  exact stepTail_ok path _ b hlast (slashBlock_ok path st b h)

/-- On a pattern that ends in `'/'` the loop does not index out of range. -/
theorem matchLoop_ok (path : Str) (hlast : path.getLast? = some slash) (url : Str) :
    ∀ (st : MatchState) (b : Nat), CursorOk path st →
      ∃ res, matchLoop path url st b = some res := by
  induction url with
  | nil =>
    intro st b h
    obtain ⟨c, hc, _⟩ := byteAt_some path st.i h.1 (by have := h.2.1; omega)
    exact ⟨_, by rw [matchLoop, hc]⟩
  | cons x url ih =>
    intro st b h
    rw [matchLoop]
    rcases matchStep_ok path st x hlast h with ⟨st2, e, h2⟩ | ⟨ps, e⟩
    · rw [e]; exact ih st2 x h2
    · rw [e]; exact ⟨_, rfl⟩

/-- Index safety: on a stored pattern and a non-empty request path the matcher
returns. -/
theorem isURLMatching_ok (path url : Str) (hp : Stored path) (hu : url ≠ []) :
    ∃ res, isURLMatching path url = some res := by
  unfold isURLMatching
  by_cases hw : path = wildcard
  · rw [if_pos hw]; exact ⟨_, rfl⟩
  · rw [if_neg hw]
    have hr : Rooted path := by
      rcases hp with h | h
      · exact absurd h hw
      · exact h
    have hpos : 0 < path.length := by
      have : path ≠ [] := by intro e; rw [e] at hr; exact absurd hr.1 (by simp)
      exact List.length_pos.mpr this
    cases hl : url.getLast? with
    | none => exact absurd (List.getLast?_eq_none_iff.mp hl) hu
    | some l =>
      exact matchLoop_ok path hr.2 _ MatchState.init 0
        ⟨le_refl _, by show (0 : Int) ≤ (path.length : Int) - 1; omega,
          fun h => absurd h (by decide)⟩

/-! ## The fields after `HandleFunc` -/

theorem HandleFunc_paths {σ : Type} (r : Router σ) (p : Str) (h : HandlerFunc σ) :
    (HandleFunc r p h).paths = sortSort (r.paths ++ [normalize p]) := rfl

theorem HandleFunc_handlers {σ : Type} (r : Router σ) (p : Str) (h : HandlerFunc σ) :
    (HandleFunc r p h).handlers = handlersSet r.handlers (normalize p) h := rfl

theorem HandleFunc_preprocess {σ : Type} (r : Router σ) (p : Str) (h : HandlerFunc σ) :
    (HandleFunc r p h).preprocess = r.preprocess := rfl

/-- `Route` on a fresh router with one pattern that does not match the
request path: no handler is invoked. -/
theorem Route_single_no_match {σ : Type} (p url : Str) (h : HandlerFunc σ) (s : σ)
    (ps : Params) (hm : isURLMatching (normalize p) url = some (ps, false)) :
    (Route (HandleFunc NewRouter p h) s { URLPath := url }).invoked = [] ∧
    (Route (HandleFunc NewRouter p h) s { URLPath := url }).fault = false ∧
    (Route (HandleFunc NewRouter p h) s { URLPath := url }).state = s := by
  have hp : (HandleFunc (NewRouter : Router σ) p h).paths = [normalize p] := by
    rw [HandleFunc_paths]
    rfl
  have hpre : (HandleFunc (NewRouter : Router σ) p h).preprocess = [] := rfl
  simp [Route, Preprocess, hpre, preprocessLoop, hp, routeLoop, hm]

/-! ## Insertion sort: the index loops and the list function -/

theorem insRev_length (x : Str) (rp : List Str) : (insRev x rp).length = rp.length + 1 := by
  induction rp with
  | nil => rfl
  | cons y ys ih =>
    unfold insRev
    split <;> simp [ih]

theorem insRev_perm (x : Str) (rp : List Str) : (insRev x rp).Perm (x :: rp) := by
  induction rp with
  | nil => exact List.Perm.refl _
  | cons y ys ih =>
    unfold insRev
    split
    · exact (List.Perm.cons y ih).trans (List.Perm.swap x y ys)
    · exact List.Perm.refl _

theorem isortRev_perm (rest : List Str) : ∀ rp : List Str,
    (isortRev rp rest).Perm (rp ++ rest) := by
  induction rest with
  | nil => intro rp; simp [isortRev]
  | cons x rest ih =>
    intro rp
    unfold isortRev
    refine (ih (insRev x rp)).trans ?_
    refine (List.Perm.append_right rest (insRev_perm x rp)).trans ?_
    simpa using (@List.perm_middle _ x rp rest).symm

theorem insertionInner_eq (rp : List Str) : ∀ (x : Str) (suf : List Str),
    insertionInner rp.length (rp.reverse ++ x :: suf) = (insRev x rp).reverse ++ suf := by
  induction rp with
  | nil => intro x suf; simp [insertionInner, insRev]
  | cons y ys ih =>
    intro x suf
    have hlen : ys.reverse.length = ys.length := List.length_reverse ys
    have e : (y :: ys).reverse ++ x :: suf = ys.reverse ++ y :: x :: suf := by simp
    have gx : (ys.reverse ++ y :: x :: suf).getD (ys.length + 1) [] = x := by
      rw [List.getD_eq_getElem?_getD, List.getElem?_append_right (by omega)]
      simp [hlen]
    have gy : (ys.reverse ++ y :: x :: suf).getD ys.length [] = y := by
      rw [List.getD_eq_getElem?_getD, List.getElem?_append_right (by omega)]
      simp [hlen]
    have hsw : Swap (ys.reverse ++ y :: x :: suf) (ys.length + 1) ys.length
        = ys.reverse ++ x :: y :: suf := by
      unfold Swap
      rw [gx, gy]
      rw [List.set_append_right _ _ (by omega), List.set_append_right _ _ (by simp)]
      simp [hlen]
    rw [e]
    show insertionInner (ys.length + 1) _ = _
    unfold insertionInner
    unfold Less
    rw [gx, gy]
    unfold insRev
    by_cases hl : pathLess x y = true
    · rw [if_pos hl, if_pos hl, hsw, ih x (y :: suf)]
      simp
    · rw [if_neg hl, if_neg hl]
      simp

theorem insertionOuter_eq (rest : List Str) : ∀ (rp : List Str),
    (List.range' rp.length rest.length).foldl (fun l i => insertionInner i l)
        (rp.reverse ++ rest) = isortRev rp rest := by
  induction rest with
  | nil => intro rp; simp [isortRev]
  | cons x rest ih =>
    intro rp
    have := ih (insRev x rp)
    rw [insRev_length] at this
    simp only [List.length_cons, List.range'_succ, List.foldl_cons]
    rw [insertionInner_eq, this, isortRev]

/-- The index-based insertion sort is the list insertion sort. -/
theorem sortSort_eq (paths : List Str) : sortSort paths = isortRev [] paths := by
  unfold sortSort insertionSort Len
  cases paths with
  | nil => rfl
  | cons x rest =>
    have := insertionOuter_eq rest [x]
    simp only [List.length_singleton, List.reverse_singleton, List.singleton_append] at this
    simp only [List.length_cons, Nat.add_sub_cancel]
    rw [this]
    rfl

theorem sortSort_perm (paths : List Str) : (sortSort paths).Perm paths := by
  rw [sortSort_eq]
  simpa using isortRev_perm paths []

/-! ## `Clean` and `Rel` on rooted paths -/

theorem dropWhile_length_le (p : Nat → Bool) (l : Str) : (l.dropWhile p).length ≤ l.length := by
  induction l with
  | nil => simp
  | cons a l ih =>
    simp only [List.dropWhile_cons]
    split
    · simp; omega
    · simp

theorem cleanLoop_fuel (rooted : Bool) : ∀ (f1 f2 : Nat) (rest out : Str) (dd : Nat),
    rest.length ≤ f1 → rest.length ≤ f2 →
    cleanLoop rooted f1 rest out dd = cleanLoop rooted f2 rest out dd := by
  intro f1
  induction f1 with
  | zero =>
    intro f2 rest out dd h1 _
    have : rest = [] := List.length_eq_zero.mp (by omega)
    subst this
    cases f2 <;> simp [cleanLoop]
  | succ f1 ih =>
    intro f2 rest out dd h1 h2
    cases rest with
    | nil => cases f2 <;> simp [cleanLoop]
    | cons c rest =>
      cases f2 with
      | zero => simp at h2
      | succ f2 =>
        simp only [List.length_cons] at h1 h2
        have ht : rest.tail.length ≤ rest.length := by simp
        have hd : ¬ c = slash →
            ((c :: rest).dropWhile (fun x => decide (x ≠ slash))).length ≤ rest.length := by
          intro hc
          simp only [List.dropWhile_cons, ne_eq, hc, not_false_eq_true, decide_True, if_true]
          exact dropWhile_length_le _ rest
        unfold cleanLoop
        split_ifs <;> exact ih _ _ _ _ (by omega) (by omega)

theorem cleanRun_nil (out : Str) : cleanRun [] out = out := by
  simp [cleanRun, cleanLoop]

/-- An empty path element. -/
theorem cleanRun_slash (rest out : Str) : cleanRun (slash :: rest) out = cleanRun rest out := by
  simp [cleanRun, cleanLoop]

theorem cleanRun_fuel (fuel : Nat) (rest out : Str) (h : rest.length ≤ fuel) :
    cleanLoop true fuel rest out 1 = cleanRun rest out :=
  cleanLoop_fuel true fuel rest.length rest out 1 h (le_refl _)

/-- A `.` element. -/
theorem cleanRun_dot (rest out : Str) :
    cleanRun (dot :: slash :: rest) out = cleanRun rest out := by
  rw [← cleanRun_slash rest out]
  show cleanLoop true ((slash :: rest).length + 1) (dot :: slash :: rest) out 1 = _
  rw [cleanLoop]
  simp only [if_neg (show ¬ dot = slash by decide)]
  rw [if_pos (by simp)]
  rfl

theorem inter_snoc (st : List Str) (seg : Str) :
    inter (st ++ [seg]) = if st = [] then seg else inter st ++ slash :: seg := by
  induction st with
  | nil => rfl
  | cons a st ih =>
    cases st with
    | nil => simp [inter]
    | cons b r =>
      show inter (a :: b :: (r ++ [seg])) = _
      rw [inter, show b :: (r ++ [seg]) = (b :: r) ++ [seg] from rfl, ih]
      simp [inter]

theorem render_length_eq_one (st : List Str) (hg : ∀ seg ∈ st, GoodSeg seg) :
    (render st).length = 1 ↔ st = [] := by
  cases st with
  | nil => simp [render, inter]
  | cons a st =>
    have ha : a ≠ [] := (hg a (by simp)).1
    have : 0 < a.length := List.length_pos.mpr ha
    constructor
    · intro h
      cases st with
      | nil => simp [render, inter] at h; exact absurd h ha
      | cons b r => simp [render, inter] at h
    · intro h; simp at h

theorem takeWhile_seg (seg rest : Str) (h : slash ∉ seg) :
    (seg ++ slash :: rest).takeWhile (fun x => decide (x ≠ slash)) = seg := by
  induction seg with
  | nil => simp
  | cons a seg ih =>
    have ha : a ≠ slash := fun e => h (by simp [e])
    have hs : slash ∉ seg := fun e => h (List.mem_cons_of_mem _ e)
    show List.takeWhile _ (a :: (seg ++ slash :: rest)) = _
    rw [List.takeWhile_cons, if_pos (by simpa using ha), ih hs]

theorem dropWhile_seg (seg rest : Str) (h : slash ∉ seg) :
    (seg ++ slash :: rest).dropWhile (fun x => decide (x ≠ slash)) = slash :: rest := by
  induction seg with
  | nil => simp
  | cons a seg ih =>
    have ha : a ≠ slash := fun e => h (by simp [e])
    have hs : slash ∉ seg := fun e => h (List.mem_cons_of_mem _ e)
    show List.dropWhile _ (a :: (seg ++ slash :: rest)) = _
    rw [List.dropWhile_cons, if_pos (by simpa using ha), ih hs]

/-- A `..` element. -/
theorem cleanRun_dotdot (rest out : Str) :
    cleanRun (dot :: dot :: slash :: rest) out
      = cleanRun rest
          (if out.length > 1 then out.take (backtrack out 1 (out.length - 1)) else out) := by
  show cleanLoop true ((dot :: slash :: rest).length + 1) (dot :: dot :: slash :: rest) out 1 = _
  rw [cleanLoop]
  simp only [if_neg (show ¬ dot = slash by decide)]
  rw [if_neg (by simp), if_pos (by simp)]
  simp only [List.tail_cons, Bool.not_true, Bool.false_eq_true, if_false]
  split <;> rw [cleanRun_fuel _ _ _ (by simp), cleanRun_slash]

/-- A real path element. -/
theorem cleanRun_elem (seg rest out : Str) (hs : slash ∉ seg) (hne : seg ≠ [])
    (hd1 : seg ≠ [dot]) (hd2 : seg ≠ [dot, dot]) :
    cleanRun (seg ++ slash :: rest) out
      = cleanRun rest ((if out.length ≠ 1 then out ++ [slash] else out) ++ seg) := by
  obtain ⟨c, seg1, rfl⟩ : ∃ c l, seg = c :: l := by
    cases seg with
    | nil => exact absurd rfl hne
    | cons c l => exact ⟨c, l, rfl⟩
  have hc : c ≠ slash := fun e => hs (by simp [e])
  have hs1 : slash ∉ seg1 := fun e => hs (List.mem_cons_of_mem _ e)
  have tw := takeWhile_seg (c :: seg1) rest hs
  have dw := dropWhile_seg (c :: seg1) rest hs
  simp only [List.cons_append] at tw dw ⊢
  show cleanLoop true ((seg1 ++ slash :: rest).length + 1) (c :: (seg1 ++ slash :: rest)) out 1 = _
  rw [cleanLoop]
  rw [if_neg hc]
  have c2 : ¬ (c = dot ∧ (seg1 ++ slash :: rest = [] ∨
      (seg1 ++ slash :: rest).head? = some slash)) := by
    rintro ⟨rfl, h⟩
    rcases h with h | h
    · simp at h
    · cases seg1 with
      | nil => exact hd1 rfl
      | cons a l => simp at h; exact hs1 (by simp [h])
  have c3 : ¬ (c = dot ∧ (seg1 ++ slash :: rest).head? = some dot ∧
      ((seg1 ++ slash :: rest).tail = [] ∨
        (seg1 ++ slash :: rest).tail.head? = some slash)) := by
    rintro ⟨rfl, h1, h2⟩
    cases seg1 with
    | nil => simp at h1
    | cons a l =>
      simp at h1
      subst h1
      cases l with
      | nil => exact hd2 rfl
      | cons b l2 =>
        simp at h2
        exact hs1 (by simp [h2])
  rw [if_neg c2, if_neg c3, tw, dw]
  simp only [true_and, not_true_eq_false, false_and, or_false]
  rw [cleanRun_fuel _ _ _ (by simp), cleanRun_slash]

theorem backtrack_stop (out : Str) (dd w : Nat) (hw : dd ≤ w)
    (hstop : w ≤ dd ∨ out[w]? = some slash) :
    ∀ n : Nat, (∀ j, w < j → j ≤ w + n → out[j]? ≠ some slash) →
      backtrack out dd (w + n) = w := by
  intro n
  induction n with
  | zero =>
    intro _
    cases w with
    | zero => rfl
    | succ w =>
      show backtrack out dd (w + 1) = w + 1
      rw [backtrack, if_neg]
      rintro ⟨h1, h2⟩
      rcases hstop with h | h
      · omega
      · exact h2 h
  | succ n ih =>
    intro hj
    show backtrack out dd (w + n + 1) = w
    rw [backtrack, if_pos ⟨by omega, hj _ (by omega) (by omega)⟩]
    exact ih (fun j h1 h2 => hj j h1 (by omega))

theorem getElem?_append_seg_ne_slash (pre seg : Str) (h : slash ∉ seg) (j : Nat)
    (hj : pre.length ≤ j) : (pre ++ seg)[j]? ≠ some slash := by
  rw [List.getElem?_append_right hj]
  intro e
  exact h (List.getElem?_mem e)

/-- Backtracking over the last element of a cleaned rooted path. -/
theorem render_backtrack (st : List Str) (last : Str) (hg : ∀ seg ∈ st, GoodSeg seg)
    (hl : GoodSeg last) :
    (render (st ++ [last])).take
        (backtrack (render (st ++ [last])) 1 ((render (st ++ [last])).length - 1))
      = render st := by
  have hpos : 0 < last.length := List.length_pos.mpr hl.1
  by_cases hst : st = []
  · subst hst
    have e : render ([] ++ [last]) = [slash] ++ last := rfl
    rw [e]
    have hb := backtrack_stop ([slash] ++ last) 1 1 (le_refl _) (Or.inl (le_refl _))
      (last.length - 1)
      (fun j h1 _ => getElem?_append_seg_ne_slash [slash] last hl.2 j (by simp; omega))
    have e2 : ([slash] ++ last).length - 1 = 1 + (last.length - 1) := by simp; omega
    rw [e2, hb]
    rfl
  · have e : render (st ++ [last]) = (slash :: inter st ++ [slash]) ++ last := by
      simp [render, inter_snoc, hst]
    rw [e]
    have hb := backtrack_stop ((slash :: inter st ++ [slash]) ++ last) 1 (inter st).length.succ
      (by omega) (Or.inr (by
        rw [List.append_assoc, List.getElem?_append_right (by simp)]
        simp))
      last.length
      (fun j h1 _ => getElem?_append_seg_ne_slash _ last hl.2 j (by simp; omega))
    have e2 : ((slash :: inter st ++ [slash]) ++ last).length - 1
        = (inter st).length.succ + last.length := by simp; omega
    rw [e2, hb, List.append_assoc]
    exact List.take_left' (by simp)

theorem stepSeg_good (st : List Str) (seg : Str) (hg : ∀ s ∈ st, GoodSeg s)
    (hs : slash ∉ seg) : ∀ s ∈ stepSeg st seg, GoodSeg s := by
  unfold stepSeg
  split
  · exact hg
  · rename_i h1
    split
    · intro s hs2
      exact hg s (List.mem_of_mem_dropLast hs2)
    · intro s hs2
      rcases List.mem_append.mp hs2 with h | h
      · exact hg s h
      · simp at h
        subst h
        exact ⟨fun e => h1 (Or.inl e), hs⟩

/-- One path element followed by `'/'`, read by `Clean` on a rooted path. -/
theorem cleanRun_seg (seg rest : Str) (st : List Str) (hs : slash ∉ seg)
    (hg : ∀ s ∈ st, GoodSeg s) :
    cleanRun (seg ++ slash :: rest) (render st) = cleanRun rest (render (stepSeg st seg)) := by
  unfold stepSeg
  by_cases h0 : seg = []
  · subst h0
    simp [cleanRun_slash]
  by_cases h1 : seg = [dot]
  · subst h1
    simp [cleanRun_dot]
  rw [if_neg (by simp [h0, h1])]
  by_cases h2 : seg = [dot, dot]
  · subst h2
    rw [if_pos rfl]
    show cleanRun (dot :: dot :: slash :: rest) _ = _
    rw [cleanRun_dotdot]
    rcases List.eq_nil_or_concat st with hst | ⟨st1, last, hst⟩
    · subst hst
      rfl
    · rw [List.concat_eq_append] at hst
      subst hst
      have hg1 : ∀ s ∈ st1, GoodSeg s := fun s h => hg s (by simp [h])
      have hl : GoodSeg last := hg last (by simp)
      have hlen : (render (st1 ++ [last])).length > 1 := by
        have := (render_length_eq_one (st1 ++ [last]) hg).not.mpr (by simp)
        have : 0 < (render (st1 ++ [last])).length := by simp [render]
        omega
      rw [if_pos hlen, render_backtrack st1 last hg1 hl, List.dropLast_concat]
  · rw [if_neg h2, cleanRun_elem seg rest _ hs h0 h1 h2]
    congr 1
    by_cases hst : st = []
    · subst hst
      rfl
    · have := (render_length_eq_one st hg).not.mpr hst
      rw [if_pos this]
      simp [render, inter_snoc, hst]

theorem joinSegs_cons (seg : Str) (ss : List Str) :
    joinSegs (seg :: ss) = seg ++ slash :: joinSegs ss := by
  simp [joinSegs]

/-- The path elements, each followed by `'/'`, read by `Clean` on a rooted path. -/
theorem cleanRun_joinSegs (ss : List Str) : ∀ (rest : Str) (st : List Str),
    (∀ seg ∈ ss, slash ∉ seg) → (∀ s ∈ st, GoodSeg s) →
    cleanRun (joinSegs ss ++ rest) (render st) = cleanRun rest (render (ss.foldl stepSeg st)) := by
  induction ss with
  | nil => intro rest st _ _; rfl
  | cons seg ss ih =>
    intro rest st hss hg
    have hs : slash ∉ seg := hss seg (by simp)
    rw [joinSegs_cons, List.append_assoc, List.cons_append, cleanRun_seg seg _ st hs hg,
      ih rest _ (fun s h => hss s (by simp [h])) (stepSeg_good st seg hg hs)]
    rfl

theorem foldl_stepSeg_good (ss : List Str) : ∀ (st : List Str),
    (∀ seg ∈ ss, slash ∉ seg) → (∀ s ∈ st, GoodSeg s) → ∀ s ∈ ss.foldl stepSeg st, GoodSeg s := by
  induction ss with
  | nil => intro st _ hg; exact hg
  | cons seg ss ih =>
    intro st hss hg
    exact ih _ (fun s h => hss s (by simp [h])) (stepSeg_good st seg hg (hss seg (by simp)))

/-- `Clean` on a rooted path whose elements all end in `'/'`. -/
theorem Clean_joinSegs (ss : List Str) (hss : ∀ seg ∈ ss, slash ∉ seg) :
    Clean (slash :: joinSegs ss) = render (comps ss) := by
  unfold Clean
  rw [if_neg (by simp)]
  simp only [List.head?_cons, decide_True, if_true, List.tail_cons, List.length_cons]
  rw [cleanRun_fuel _ _ _ (by omega)]
  have := cleanRun_joinSegs ss [] [] hss (by simp)
  rw [List.append_nil, cleanRun_nil] at this
  have e : render [] = [slash] := rfl
  rw [e] at this
  rw [this, if_neg (by simp [render])]
  rfl

theorem relLoop_fuel : ∀ (f1 f2 : Nat) (b t : Str), b.length ≤ f1 → b.length ≤ f2 →
    relLoop f1 b t = relLoop f2 b t := by
  intro f1
  induction f1 with
  | zero =>
    intro f2 b t h1 _
    have : b = [] := List.length_eq_zero.mp (by omega)
    subst this
    cases f2 <;> simp [relLoop]
  | succ f1 ih =>
    intro f2 b t h1 h2
    cases f2 with
    | zero =>
      have : b = [] := List.length_eq_zero.mp (by omega)
      subst this
      simp [relLoop]
    | succ f2 =>
      unfold relLoop
      by_cases hc : b ≠ [] ∧ t ≠ []
      · rw [if_pos hc, if_pos hc]
        simp only []
        split_ifs
        · rfl
        · have hb : 0 < b.length := List.length_pos.mpr hc.1
          apply ih <;> simp only [List.length_drop] <;> omega
      · rw [if_neg hc, if_neg hc]

theorem takeWhile_self (seg : Str) (h : slash ∉ seg) :
    seg.takeWhile (fun x => decide (x ≠ slash)) = seg := by
  induction seg with
  | nil => rfl
  | cons a seg ih =>
    have ha : a ≠ slash := fun e => h (by simp [e])
    have hs : slash ∉ seg := fun e => h (List.mem_cons_of_mem _ e)
    rw [List.takeWhile_cons, if_pos (by simpa using ha), ih hs]

theorem takeWhile_inter_cons (c : Str) (bs : List Str) (hc : slash ∉ c) :
    (inter (c :: bs)).takeWhile (fun x => decide (x ≠ slash)) = c := by
  cases bs with
  | nil => exact takeWhile_self c hc
  | cons d r => exact takeWhile_seg c _ hc

theorem drop_inter_cons (c : Str) (bs : List Str) :
    ((inter (c :: bs)).drop c.length).drop 1 = inter bs := by
  cases bs with
  | nil => simp [inter]
  | cons d r => simp [inter]

theorem inter_cons_ne_nil (c : Str) (bs : List Str) (hc : c ≠ []) : inter (c :: bs) ≠ [] := by
  cases bs with
  | nil => exact hc
  | cons d r => simp [inter]

/-- The loop of `Rel` on two cleaned paths without their leading `'/'`. -/
theorem relLoop_inter (bs : List Str) : ∀ (ts : List Str) (fuel : Nat),
    (∀ s ∈ bs, GoodSeg s) → (∀ s ∈ ts, GoodSeg s) → (inter bs).length ≤ fuel →
    relLoop fuel (inter bs) (inter ts) = relSpec bs ts := by
  induction bs with
  | nil =>
    intro ts fuel _ _ _
    cases fuel <;> simp [relLoop, relSpec, inter]
  | cons c bs ih =>
    intro ts fuel hb ht hf
    have hc : GoodSeg c := hb c (by simp)
    have hbne := inter_cons_ne_nil c bs hc.1
    cases fuel with
    | zero => exact absurd (List.length_eq_zero.mp (by omega)) hbne
    | succ fuel =>
      cases ts with
      | nil => simp [relLoop, relSpec, inter]
      | cons d ts =>
        have hd : GoodSeg d := ht d (by simp)
        have htne := inter_cons_ne_nil d ts hd.1
        rw [relLoop, if_pos ⟨hbne, htne⟩]
        simp only [takeWhile_inter_cons c bs hc.2, takeWhile_inter_cons d ts hd.2,
          drop_inter_cons]
        rw [relSpec]
        by_cases hdc : d = c
        · rw [if_neg (by simp [hdc]), if_neg (by simp [hdc])]
          apply ih ts fuel (fun s h => hb s (by simp [h])) (fun s h => ht s (by simp [h]))
          have := congrArg List.length (drop_inter_cons c bs)
          simp only [List.length_drop] at this
          have hpos : 0 < (inter (c :: bs)).length := List.length_pos.mpr hbne
          omega
        · rw [if_pos hdc, if_pos hdc]

theorem relSpec_append (bs : List Str) : ∀ r : List Str,
    relSpec bs (bs ++ r) = ([], inter r, []) := by
  induction bs with
  | nil => intro r; rfl
  | cons c bs ih => intro r; simp [relSpec, ih]

theorem relSpec_fst_eq_nil (bs : List Str) : ∀ ts : List Str, (∀ s ∈ bs, GoodSeg s) →
    (relSpec bs ts).1 = [] → ∃ r, ts = bs ++ r := by
  induction bs with
  | nil => intro ts _ _; exact ⟨ts, rfl⟩
  | cons c bs ih =>
    intro ts hb h
    have hbne := inter_cons_ne_nil c bs (hb c (by simp)).1
    cases ts with
    | nil => simp [relSpec] at h; exact absurd h hbne
    | cons d ts =>
      rw [relSpec] at h
      by_cases hdc : d = c
      · rw [if_neg (by simp [hdc])] at h
        obtain ⟨r, hr⟩ := ih ts (fun s hs => hb s (by simp [hs])) h
        exact ⟨r, by simp [hdc, hr]⟩
      · rw [if_pos hdc] at h
        exact absurd h hbne

theorem inter_head (c : Str) (r : List Str) (hc : c ≠ []) :
    (inter (c :: r)).head? = c.head? := by
  cases c with
  | nil => exact absurd rfl hc
  | cons x c => cases r <;> simp [inter]

theorem inter_length_append_cons (bs : List Str) (c : Str) (r : List Str) (hc : c ≠ []) :
    (inter bs).length < (inter (bs ++ c :: r)).length := by
  have hpos : 0 < (inter (c :: r)).length := List.length_pos.mpr (inter_cons_ne_nil c r hc)
  induction bs with
  | nil => simpa [inter] using hpos
  | cons a bs ih =>
    cases bs with
    | nil =>
      simp only [List.cons_append, List.nil_append, inter, List.length_append,
        List.length_cons]
      omega
    | cons b bs =>
      show (inter (a :: b :: bs)).length < (inter (a :: b :: (bs ++ c :: r))).length
      have ih2 : (inter (b :: bs)).length < (inter (b :: (bs ++ c :: r))).length := ih
      rw [inter, inter]
      simp only [List.length_append, List.length_cons]
      omega

/-- `Rel` on two paths whose cleaned forms are rooted with the given elements. -/
theorem Rel_render (a b : Str) (bs ts : List Str) (hca : Clean a = render bs)
    (hcb : Clean b = render ts) (hgb : ∀ s ∈ bs, GoodSeg s) (hgt : ∀ s ∈ ts, GoodSeg s) :
    Rel a b =
      if render ts = render bs then some [dot]
      else
        if (relSpec bs ts).2.2 = [dot, dot] then none
        else if (relSpec bs ts).1 ≠ [] then
          some ([dot, dot] ++ (List.replicate ((relSpec bs ts).1.count slash)
            [slash, dot, dot]).flatten ++
            (if (relSpec bs ts).2.1 ≠ [] then slash :: (relSpec bs ts).2.1 else []))
        else some (relSpec bs ts).2.1 := by
  unfold Rel
  simp only [hca, hcb]
  split
  · rfl
  · have e1 : render bs ≠ [dot] := by simp [render]
    rw [if_neg e1]
    have e2 : ¬ (decide ((render bs).head? = some slash)
        ≠ decide ((render ts).head? = some slash)) := by simp [render]
    rw [if_neg e2]
    have e3 : relLoop (render bs).length (render bs) (render ts) = relSpec bs ts := by
      show relLoop ((inter bs).length + 1) (slash :: inter bs) (slash :: inter ts) = _
      rw [relLoop, if_pos (by simp)]
      simp only [List.takeWhile_cons, ne_eq, not_true_eq_false, decide_False,
        Bool.false_eq_true, if_false, List.length_nil, List.drop_zero, List.drop_one,
        List.tail_cons]
      exact relLoop_inter bs ts _ hgb hgt (le_refl _)
    rw [e3]

/-- When `Less` is false on a pattern `a` other than `"*"`: the cleaned form
of `b` extends the one of `a` by elements of which the first does not begin
with `'.'`. -/
theorem pathLess_eq_false_iff (a b : Str) (bs ts : List Str) (ha : a ≠ wildcard)
    (hca : Clean a = render bs) (hcb : Clean b = render ts) (hgb : ∀ s ∈ bs, GoodSeg s)
    (hgt : ∀ s ∈ ts, GoodSeg s) :
    pathLess a b = false ↔ ∃ c r, ts = bs ++ c :: r ∧ c.head? ≠ some dot := by
  unfold pathLess
  rw [if_neg ha, Rel_render a b bs ts hca hcb hgb hgt]
  constructor
  · intro h
    by_cases h1 : render ts = render bs
    · rw [if_pos h1] at h
      simp at h
    rw [if_neg h1] at h
    by_cases h2 : (relSpec bs ts).2.2 = [dot, dot]
    · rw [if_pos h2] at h
      simp at h
    rw [if_neg h2] at h
    by_cases h3 : (relSpec bs ts).1 ≠ []
    · rw [if_pos h3] at h
      simp at h
    rw [if_neg h3] at h
    have h3 : (relSpec bs ts).1 = [] := by simpa using h3
    obtain ⟨r, hr⟩ := relSpec_fst_eq_nil bs ts hgb h3
    subst hr
    rw [relSpec_append] at h
    cases r with
    | nil => simp at h1
    | cons c r =>
      refine ⟨c, r, rfl, ?_⟩
      have hc : GoodSeg c := hgt c (by simp)
      simp only [inter_head c r hc.1] at h
      simpa using h
  · rintro ⟨c, r, rfl, hc⟩
    have hgc : GoodSeg c := hgt c (by simp)
    have h1 : render (bs ++ c :: r) ≠ render bs := by
      intro e
      have := congrArg List.length e
      have := inter_length_append_cons bs c r hgc.1
      simp [render] at *
      omega
    rw [if_neg h1, relSpec_append]
    simp only [List.cons_ne_self, not_false_eq_true, ne_eq, not_true_eq_false, if_false]
    rw [if_neg (by decide)]
    simp only [inter_head c r hgc.1]
    simpa using hc

/-! ## The order of the stored patterns -/

theorem Rooted.ne_wildcard {p : Str} (h : Rooted p) : p ≠ wildcard := by
  intro e
  rw [e] at h
  exact absurd h.1 (by decide)

theorem normalize_stored (p : Str) : Stored (normalize p) := by
  unfold normalize
  by_cases h0 : p = []
  · left; subst h0; decide
  · simp only [if_neg h0]
    by_cases hw : p = wildcard
    · left; subst hw; decide
    · right
      have hlast : (if p.getLast? ≠ some slash ∧ p ≠ wildcard then p ++ [slash] else p).getLast?
          = some slash := by
        split
        · exact List.getLast?_concat p
        · rename_i h; simp only [not_and_or, not_not] at h
          rcases h with h | h
          · exact h
          · exact absurd h hw
      have hne : (if p.getLast? ≠ some slash ∧ p ≠ wildcard then p ++ [slash] else p)
          ≠ wildcard := by
        split
        · intro e
          have h1 := congrArg List.length e
          rw [List.length_append] at h1
          simp only [wildcard, List.length_singleton] at h1
          have : 0 < p.length := List.length_pos.mpr h0
          omega
        · exact hw
      generalize (if p.getLast? ≠ some slash ∧ p ≠ wildcard then p ++ [slash] else p) = q
        at hlast hne
      split
      · constructor
        · rfl
        · rw [List.getLast?_cons, hlast]
          rfl
      · rename_i h
        simp only [not_and_or, not_not] at h
        rcases h with h | h
        · exact ⟨h, hlast⟩
        · exact absurd h hne

theorem exists_joinSegs_append (s : Str) :
    ∃ (ss : List Str) (last : Str), (∀ seg ∈ ss, slash ∉ seg) ∧ slash ∉ last ∧
      s = joinSegs ss ++ last := by
  induction s with
  | nil => exact ⟨[], [], by simp, by simp, rfl⟩
  | cons c s ih =>
    obtain ⟨ss, last, hss, hl, rfl⟩ := ih
    by_cases hc : c = slash
    · subst hc
      refine ⟨[] :: ss, last, ?_, hl, ?_⟩
      · intro seg hseg
        rcases List.mem_cons.mp hseg with h | h
        · subst h; simp
        · exact hss seg h
      · simp [joinSegs_cons]
    · cases ss with
      | nil =>
        refine ⟨[], c :: last, by simp, ?_, rfl⟩
        intro h
        rcases List.mem_cons.mp h with h | h
        · exact hc h.symm
        · exact hl h
      | cons seg ss =>
        refine ⟨(c :: seg) :: ss, last, ?_, hl, ?_⟩
        · intro seg2 hseg
          rcases List.mem_cons.mp hseg with h | h
          · subst h
            intro h2
            rcases List.mem_cons.mp h2 with h3 | h3
            · exact hc h3.symm
            · exact hss seg (by simp) h3
          · exact hss seg2 (by simp [h])
        · simp [joinSegs_cons]

/-- A pattern with a leading and a trailing `'/'` is a sequence of path
elements, each followed by `'/'`, after the leading `'/'`. -/
theorem Rooted.exists_joinSegs {p : Str} (h : Rooted p) :
    ∃ ss : List Str, (∀ seg ∈ ss, slash ∉ seg) ∧ p = slash :: joinSegs ss := by
  obtain ⟨h1, h2⟩ := h
  cases p with
  | nil => simp at h1
  | cons c s =>
    simp at h1
    subst h1
    obtain ⟨ss, last, hss, hl, rfl⟩ := exists_joinSegs_append s
    refine ⟨ss, hss, ?_⟩
    by_cases hlast : last = []
    · subst hlast; simp
    · exfalso
      rw [← List.cons_append, List.getLast?_append_of_ne_nil _ hlast] at h2
      exact hl (List.mem_of_getLast?_eq_some h2)

/-- The cleaned form of a stored pattern other than `"*"`. -/
theorem Rooted.exists_clean {p : Str} (h : Rooted p) :
    ∃ cs : List Str, (∀ s ∈ cs, GoodSeg s) ∧ Clean p = render cs := by
  obtain ⟨ss, hss, rfl⟩ := h.exists_joinSegs
  exact ⟨comps ss, foldl_stepSeg_good ss [] hss (by simp), Clean_joinSegs ss hss⟩

/-- Every stored pattern other than `"*"` is `Less` than `"*"`. -/
theorem pathLess_wildcard {p : Str} (h : Rooted p) : pathLess p wildcard = true := by
  obtain ⟨cs, _, hc⟩ := h.exists_clean
  have hw : Clean wildcard = [star] := by decide
  unfold pathLess Rel
  rw [if_neg h.ne_wildcard, hc, hw]
  simp [render]

theorem pathLess_wildcard_left (b : Str) : pathLess wildcard b = false := by
  simp [pathLess]

/-- If `Less` is false on two stored patterns, the first one not `"*"`, then
the second one is not `"*"`. -/
theorem Stored.rooted_of_pathLess {a b : Str} (ha : Rooted a) (hb : Stored b)
    (h : pathLess a b = false) : Rooted b := by
  rcases hb with hb | hb
  · subst hb
    rw [pathLess_wildcard ha] at h
    exact absurd h (by decide)
  · exact hb

theorem pathLess_asymm {a b : Str} (ha : Rooted a) (hb : Rooted b)
    (h : pathLess a b = false) : pathLess b a = true := by
  obtain ⟨bs, hgb, hca⟩ := ha.exists_clean
  obtain ⟨ts, hgt, hcb⟩ := hb.exists_clean
  obtain ⟨c, r, h1, _⟩ := (pathLess_eq_false_iff a b bs ts ha.ne_wildcard hca hcb hgb hgt).mp h
  cases h2 : pathLess b a with
  | true => rfl
  | false =>
    obtain ⟨c2, r2, h3, _⟩ :=
      (pathLess_eq_false_iff b a ts bs hb.ne_wildcard hcb hca hgt hgb).mp h2
    have := congrArg List.length h1
    have := congrArg List.length h3
    simp at *
    omega

theorem pathLess_trans_false {a b c : Str} (ha : Rooted a) (hb : Rooted b) (hc : Rooted c)
    (h1 : pathLess a b = false) (h2 : pathLess b c = false) : pathLess a c = false := by
  obtain ⟨as, hga, hca⟩ := ha.exists_clean
  obtain ⟨bs, hgb, hcb⟩ := hb.exists_clean
  obtain ⟨cs, hgc, hcc⟩ := hc.exists_clean
  obtain ⟨x, r, e1, hx⟩ :=
    (pathLess_eq_false_iff a b as bs ha.ne_wildcard hca hcb hga hgb).mp h1
  obtain ⟨y, r2, e2, _⟩ :=
    (pathLess_eq_false_iff b c bs cs hb.ne_wildcard hcb hcc hgb hgc).mp h2
  refine (pathLess_eq_false_iff a c as cs ha.ne_wildcard hca hcc hga hgc).mpr
    ⟨x, r ++ y :: r2, ?_, hx⟩
  rw [e2, e1]
  simp

theorem Rel_wildcard {a : Str} (h : Rooted a) : Rel a wildcard = none := by
  obtain ⟨cs, _, hc⟩ := h.exists_clean
  have hw : Clean wildcard = [star] := by decide
  unfold Rel
  rw [hc, hw]
  simp [render]

/-- On the patterns that `HandleFunc` stores, `Rel` does not return the empty
string, so `Less` reads `rel[0]` safely. -/
theorem Rel_ne_nil {a b : Str} (ha : Rooted a) (hb : Stored b) : Rel a b ≠ some [] := by
  rcases hb with hb | hb
  · rw [hb, Rel_wildcard ha]
    simp
  · obtain ⟨bs, hgb, hca⟩ := ha.exists_clean
    obtain ⟨ts, hgt, hcb⟩ := hb.exists_clean
    rw [Rel_render a b bs ts hca hcb hgb hgt]
    by_cases h1 : render ts = render bs
    · rw [if_pos h1]; simp
    rw [if_neg h1]
    by_cases h2 : (relSpec bs ts).2.2 = [dot, dot]
    · rw [if_pos h2]; simp
    rw [if_neg h2]
    by_cases h3 : (relSpec bs ts).1 ≠ []
    · rw [if_pos h3]; simp
    rw [if_neg h3]
    have h3 : (relSpec bs ts).1 = [] := by simpa using h3
    obtain ⟨r, hr⟩ := relSpec_fst_eq_nil bs ts hgb h3
    subst hr
    rw [relSpec_append]
    cases r with
    | nil => simp at h1
    | cons c r =>
      have hc : GoodSeg c := hgt c (by simp)
      have := inter_cons_ne_nil c r hc.1
      simpa using this

/-! ## Invariants of the sorted sequence -/

theorem mem_insRev {x y : Str} {rp : List Str} (h : y ∈ insRev x rp) : y = x ∨ y ∈ rp :=
  List.mem_cons.mp ((insRev_perm x rp).subset h)

theorem insRev_starsFirst (x : Str) (hx : Stored x) (rp : List Str)
    (hrp : ∀ y ∈ rp, Stored y) (h : StarsFirst rp) : StarsFirst (insRev x rp) := by
  induction rp with
  | nil => simp [insRev, StarsFirst]
  | cons y ys ih =>
    unfold StarsFirst at h ⊢
    rw [List.pairwise_cons] at h
    unfold insRev
    by_cases hl : pathLess x y = true
    · rw [if_pos hl, List.pairwise_cons]
      refine ⟨?_, ih (fun z hz => hrp z (by simp [hz])) h.2⟩
      intro v hv hvw
      rcases mem_insRev hv with e | e
      · subst e
        rw [hvw, pathLess_wildcard_left] at hl
        exact absurd hl (by decide)
      · exact h.1 v e hvw
    · rw [if_neg hl, List.pairwise_cons]
      refine ⟨?_, List.pairwise_cons.mpr h⟩
      intro v hv hvw
      rcases hx with hx | hx
      · exact hx
      · exfalso
        have hy : y ≠ wildcard := by
          intro e
          rw [e, pathLess_wildcard hx] at hl
          exact hl rfl
        rcases List.mem_cons.mp hv with e | e
        · exact hy (e ▸ hvw)
        · exact hy (h.1 v e hvw)

theorem insRev_lessAfter (x : Str) (hx : Stored x) (rp : List Str)
    (hrp : ∀ y ∈ rp, Stored y) (h : LessAfter rp) : LessAfter (insRev x rp) := by
  induction rp with
  | nil => simp [insRev, LessAfter]
  | cons y ys ih =>
    unfold LessAfter at h ⊢
    rw [List.pairwise_cons] at h
    unfold insRev
    by_cases hl : pathLess x y = true
    · rw [if_pos hl, List.pairwise_cons]
      refine ⟨?_, ih (fun z hz => hrp z (by simp [hz])) h.2⟩
      intro v hv
      rcases mem_insRev hv with e | e
      · subst e
        exact Or.inr hl
      · exact h.1 v e
    · rw [if_neg hl, List.pairwise_cons]
      refine ⟨?_, List.pairwise_cons.mpr h⟩
      have hl2 : pathLess x y = false := by simpa using hl
      intro v hv
      have hvs : Stored v := hrp v hv
      rcases hvs with hvw | hvr
      · exact Or.inl hvw
      right
      rcases hx with hxw | hxr
      · rw [hxw]
        exact pathLess_wildcard hvr
      have hyr : Rooted y := Stored.rooted_of_pathLess hxr (hrp y (by simp)) hl2
      rcases List.mem_cons.mp hv with e | e
      · rw [e]
        exact pathLess_asymm hxr hyr hl2
      · cases hvx : pathLess v x with
        | true => rfl
        | false =>
          have := pathLess_trans_false hvr hxr hyr hvx hl2
          rcases h.1 v e with h3 | h3
          · exact absurd h3 hvr.ne_wildcard
          · rw [this] at h3
            exact absurd h3 (by decide)

theorem isortRev_inv (P : List Str → Prop)
    (hins : ∀ x rp, Stored x → (∀ y ∈ rp, Stored y) → P rp → P (insRev x rp))
    (rest : List Str) : ∀ rp : List Str, (∀ y ∈ rp, Stored y) → (∀ y ∈ rest, Stored y) →
      P rp → P (isortRev rp rest).reverse := by
  induction rest with
  | nil => intro rp _ _ h; simpa [isortRev] using h
  | cons x rest ih =>
    intro rp hrp hrest h
    rw [isortRev]
    refine ih _ ?_ (fun y hy => hrest y (by simp [hy]))
      (hins x rp (hrest x (by simp)) hrp h)
    intro y hy
    rcases mem_insRev hy with e | e
    · exact e ▸ hrest x (by simp)
    · exact hrp y e

/-- In the output of the insertion sort every `"*"` comes after every other
pattern. -/
theorem sortSort_wildcard_last (paths : List Str) (h : ∀ p ∈ paths, Stored p) :
    (sortSort paths).Pairwise (fun a b => a = wildcard → b = wildcard) := by
  have := isortRev_inv StarsFirst (fun x rp hx => insRev_starsFirst x hx rp) paths [] (by simp) h (by simp [StarsFirst])
  rw [← sortSort_eq] at this
  exact List.pairwise_reverse.mp this

/-- In the output of the insertion sort a pattern other than `"*"` is `Less`
than every pattern after it. -/
theorem sortSort_less_after (paths : List Str) (h : ∀ p ∈ paths, Stored p) :
    (sortSort paths).Pairwise (fun a b => a = wildcard ∨ pathLess a b = true) := by
  have := isortRev_inv LessAfter (fun x rp hx => insRev_lessAfter x hx rp) paths [] (by simp) h (by simp [LessAfter])
  rw [← sortSort_eq] at this
  exact List.pairwise_reverse.mp this

theorem registerAll_snoc {σ : Type} (regs : List (Str × HandlerFunc σ))
    (e : Str × HandlerFunc σ) :
    registerAll (regs ++ [e]) = HandleFunc (registerAll regs) e.1 e.2 := by
  simp [registerAll]

/-- The sequence `paths` holds the stored forms of the registered patterns. -/
theorem registerAll_paths_perm {σ : Type} (regs : List (Str × HandlerFunc σ)) :
    (registerAll regs).paths.Perm (regs.map (fun e => normalize e.1)) := by
  induction regs using List.reverseRecOn with
  | nil => exact List.Perm.refl _
  | append_singleton regs e ih =>
    rw [registerAll_snoc, HandleFunc_paths, List.map_append]
    exact (sortSort_perm _).trans (List.Perm.append_right _ ih)

theorem registerAll_paths_stored {σ : Type} (regs : List (Str × HandlerFunc σ)) :
    ∀ p ∈ (registerAll regs).paths, Stored p := by
  intro p hp
  have := (registerAll_paths_perm regs).subset hp
  obtain ⟨e, _, rfl⟩ := List.mem_map.mp this
  exact normalize_stored e.1

/-- After any registrations `paths` is the output of the sort on stored patterns. -/
theorem registerAll_paths_sorted {σ : Type} (regs : List (Str × HandlerFunc σ)) :
    regs = [] ∨ ∃ l : List Str, (∀ p ∈ l, Stored p) ∧ (registerAll regs).paths = sortSort l := by
  rcases List.eq_nil_or_concat regs with h | ⟨regs1, e, h⟩
  · exact Or.inl h
  · right
    rw [List.concat_eq_append] at h
    subst h
    refine ⟨(registerAll regs1).paths ++ [normalize e.1], ?_, ?_⟩
    · intro p hp
      rcases List.mem_append.mp hp with h | h
      · exact registerAll_paths_stored regs1 p h
      · simp at h; subst h; exact normalize_stored e.1
    · rw [registerAll_snoc, HandleFunc_paths]

theorem registerAll_wildcard_last {σ : Type} (regs : List (Str × HandlerFunc σ)) :
    (registerAll regs).paths.Pairwise (fun a b => a = wildcard → b = wildcard) := by
  rcases registerAll_paths_sorted regs with h | ⟨l, hl, e⟩
  · subst h; exact List.Pairwise.nil
  · rw [e]; exact sortSort_wildcard_last l hl

theorem registerAll_less_after {σ : Type} (regs : List (Str × HandlerFunc σ)) :
    (registerAll regs).paths.Pairwise (fun a b => a = wildcard ∨ pathLess a b = true) := by
  rcases registerAll_paths_sorted regs with h | ⟨l, hl, e⟩
  · subst h; exact List.Pairwise.nil
  · rw [e]; exact sortSort_less_after l hl

theorem joinSegs_append (ss ts : List Str) : joinSegs (ss ++ ts) = joinSegs ss ++ joinSegs ts := by
  simp [joinSegs]

theorem joinSegs_ne_nil {ss : List Str} (h : ss ≠ []) : joinSegs ss ≠ [] := by
  cases ss with
  | nil => exact absurd rfl h
  | cons s ss => simp [joinSegs_cons]

theorem foldl_stepSeg_plain (segs : List Str) : ∀ st : List Str,
    (∀ s ∈ segs, s ≠ [] ∧ s ≠ [dot] ∧ s ≠ [dot, dot]) → segs.foldl stepSeg st = st ++ segs := by
  induction segs with
  | nil => intro st _; simp
  | cons s segs ih =>
    intro st h
    obtain ⟨h1, h2, h3⟩ := h s (by simp)
    rw [List.foldl_cons, ih _ (fun x hx => h x (by simp [hx]))]
    simp [stepSeg, h1, h2, h3]

/-- `Less` is false from a stored pattern to its extension by path elements,
none of them `.` or `..`, the first one not beginning with `'.'`. -/
theorem pathLess_extension (a : Str) (segs : List Str) (ha : Rooted a) (hne : segs ≠ [])
    (hseg : ∀ s ∈ segs, s ≠ [] ∧ slash ∉ s ∧ s ≠ [dot] ∧ s ≠ [dot, dot])
    (hfirst : ∀ s, segs.head? = some s → s.head? ≠ some dot) :
    pathLess a (a ++ joinSegs segs) = false := by
  obtain ⟨ss, hss, rfl⟩ := ha.exists_joinSegs
  have hss2 : ∀ seg ∈ ss ++ segs, slash ∉ seg := by
    intro seg h
    rcases List.mem_append.mp h with h | h
    · exact hss seg h
    · exact (hseg seg h).2.1
  have hca := Clean_joinSegs ss hss
  have hcb := Clean_joinSegs (ss ++ segs) hss2
  have e : comps (ss ++ segs) = comps ss ++ segs := by
    unfold comps
    rw [List.foldl_append]
    exact foldl_stepSeg_plain segs _ (fun s h => ⟨(hseg s h).1, (hseg s h).2.2⟩)
  rw [joinSegs_append, ← List.cons_append] at hcb
  rw [List.cons_append] at hcb
  have hg1 := foldl_stepSeg_good ss [] hss (by simp)
  have hg2 := foldl_stepSeg_good (ss ++ segs) [] hss2 (by simp)
  rw [List.cons_append]
  refine (pathLess_eq_false_iff _ _ (comps ss) (comps (ss ++ segs)) ha.ne_wildcard hca hcb
    hg1 hg2).mpr ?_
  cases segs with
  | nil => exact absurd rfl hne
  | cons c r => exact ⟨c, r, e, hfirst c rfl⟩

/-- With the insertion sort `sortSort`, after any registrations an extension of
a pattern by path elements, none of them `.` or `..`, the first one not
beginning with `'.'`, is listed before the pattern. -/
theorem registerAll_extension_first {σ : Type} (regs : List (Str × HandlerFunc σ)) (A : Str)
    (segs : List Str) (hne : segs ≠ [])
    (hseg : ∀ s ∈ segs, s ≠ [] ∧ slash ∉ s ∧ s ≠ [dot] ∧ s ≠ [dot, dot])
    (hfirst : ∀ s, segs.head? = some s → s.head? ≠ some dot)
    (i j : Nat) (hi : (GetPaths (registerAll regs))[i]? = some A)
    (hj : (GetPaths (registerAll regs))[j]? = some (A ++ joinSegs segs)) : j < i := by
  unfold GetPaths at hi hj
  have hA : Stored A := registerAll_paths_stored regs A (List.getElem?_mem hi)
  have hB : Stored (A ++ joinSegs segs) := registerAll_paths_stored regs _ (List.getElem?_mem hj)
  have hjn := joinSegs_ne_nil hne
  have hAr : Rooted A := by
    rcases hA with hA | hA
    · exfalso
      subst hA
      rcases hB with hB | hB
      · have h1 := congrArg List.length hB
        rw [List.length_append] at h1
        have : 0 < (joinSegs segs).length := List.length_pos.mpr hjn
        omega
      · exact absurd hB.1 (by simp [wildcard])
    · exact hA
  have hless := pathLess_extension A segs hAr hne hseg hfirst
  have hpw := List.pairwise_iff_getElem.mp (registerAll_less_after regs)
  obtain ⟨hi1, hi2⟩ := List.getElem?_eq_some.mp hi
  obtain ⟨hj1, hj2⟩ := List.getElem?_eq_some.mp hj
  by_contra hcon
  rcases Nat.lt_or_eq_of_le (Nat.le_of_not_lt hcon) with hlt | heq
  · have := hpw i j hi1 hj1 hlt
    rw [hi2, hj2, hless] at this
    rcases this with h | h
    · exact hAr.ne_wildcard h
    · exact absurd h (by decide)
  · subst heq
    have e : A = A ++ joinSegs segs := hi2.symm.trans hj2
    have h1 := congrArg List.length e
    rw [List.length_append] at h1
    have : 0 < (joinSegs segs).length := List.length_pos.mpr hjn
    omega

/-- With the insertion sort `sortSort`, after any registrations every `"*"` is
listed after every other pattern. -/
theorem registerAll_wildcard_after {σ : Type} (regs : List (Str × HandlerFunc σ)) :
    ∀ (i j : Nat) (p : Str), (GetPaths (registerAll regs))[i]? = some wildcard →
      (GetPaths (registerAll regs))[j]? = some p → p ≠ wildcard → j < i := by
  unfold GetPaths
  have hpw := List.pairwise_iff_getElem.mp (registerAll_wildcard_last regs)
  intro i j p hi hj hp
  obtain ⟨hi1, hi2⟩ := List.getElem?_eq_some.mp hi
  obtain ⟨hj1, hj2⟩ := List.getElem?_eq_some.mp hj
  by_contra hcon
  rcases Nat.lt_or_eq_of_le (Nat.le_of_not_lt hcon) with hlt | heq
  · exact hp (hj2 ▸ hpw i j hi1 hj1 hlt hi2)
  · subst heq
    exact hp (hj2.symm.trans hi2)

/-- With the insertion sort `sortSort`, after any registrations the sequence is
in the order that the comparator fixes. -/
theorem registerAll_specificFirst {σ : Type} (regs : List (Str × HandlerFunc σ)) :
    SpecificFirst (GetPaths (registerAll regs)) :=
  ⟨registerAll_wildcard_after regs,
    fun A segs hne hseg hfirst i j hi hj =>
      registerAll_extension_first regs A segs hne hseg hfirst i j hi hj⟩

/-! ## The route table and dispatch on non-empty request paths -/

theorem lookup_filter_ne {σ : Type} (m : List (Str × HandlerFunc σ)) (k q : Str) (e : q ≠ k) :
    (m.filter (fun x => decide (x.1 ≠ k))).lookup q = m.lookup q := by
  induction m with
  | nil => rfl
  | cons x m ih =>
    obtain ⟨a, f⟩ := x
    by_cases hak : a = k
    · have hqa : (q == a) = false := by rw [hak]; simpa using e
      rw [List.filter_cons_of_neg (by simpa using hak), ih, List.lookup, hqa]
    · rw [List.filter_cons_of_pos (by simpa using hak)]
      by_cases hqa : q = a
      · have hqa2 : (q == a) = true := by simpa using hqa
        rw [List.lookup, hqa2, List.lookup, hqa2]
      · have hqa2 : (q == a) = false := by simpa using hqa
        rw [List.lookup, hqa2, List.lookup, hqa2]
        exact ih

theorem lookup_handlersSet {σ : Type} (m : List (Str × HandlerFunc σ)) (k q : Str)
    (h : HandlerFunc σ) :
    (handlersSet m k h).lookup q = if q = k then some h else m.lookup q := by
  unfold handlersSet
  by_cases e : q = k
  · have e2 : (q == k) = true := by simpa using e
    rw [if_pos e, List.lookup, e2]
  · have e2 : (q == k) = false := by simpa using e
    rw [if_neg e, List.lookup, e2]
    exact lookup_filter_ne m k q e

/-- Every pattern of `paths` is a stored pattern. -/
theorem Reachable.stored {σ : Type} {r : Router σ} (hr : Reachable r) :
    ∀ p ∈ r.paths, Stored p := by
  induction hr with
  | newRouter => intro p hp; simp [NewRouter] at hp
  | handleFunc r q h _ ih =>
    intro p hp
    rw [HandleFunc_paths] at hp
    rcases List.mem_append.mp ((sortSort_perm _).subset hp) with e | e
    · exact ih p e
    · simp at e; rw [e]; exact normalize_stored q
  | handlePreprocess r f _ ih => exact ih

/-- Every pattern of `paths` has a handler in the map. -/
theorem Reachable.has_handler {σ : Type} {r : Router σ} (hr : Reachable r) :
    ∀ p ∈ r.paths, ∃ f, r.handlers.lookup p = some f := by
  induction hr with
  | newRouter => intro p hp; simp [NewRouter] at hp
  | handleFunc r q h _ ih =>
    intro p hp
    rw [HandleFunc_paths] at hp
    rw [HandleFunc_handlers, lookup_handlersSet]
    by_cases e : p = normalize q
    · exact ⟨h, by rw [if_pos e]⟩
    · rw [if_neg e]
      rcases List.mem_append.mp ((sortSort_perm _).subset hp) with e2 | e2
      · exact ih p e2
      · simp at e2; exact absurd e2 e
  | handlePreprocess r f _ ih => exact ih

/-- The route loop on stored patterns and a non-empty request path: it does
not panic, and it is the dispatch over the matching patterns. -/
theorem routeLoop_eq_dispatch {σ : Type} (r : Router σ) (req : HttpRequest)
    (hu : req.URLPath ≠ []) (paths : List Str) :
    ∀ (s : σ) (invoked : List (Str × Params)), (∀ p ∈ paths, Stored p) →
      routeLoop r req paths s invoked
        = dispatch r.handlers req (matching paths req.URLPath) s invoked := by
  induction paths with
  | nil => intro s invoked _; rfl
  | cons p paths ih =>
    intro s invoked hst
    have ih2 := fun s invoked => ih s invoked (fun q hq => hst q (by simp [hq]))
    obtain ⟨⟨params, ok⟩, e⟩ := isURLMatching_ok p req.URLPath (hst p (by simp)) hu
    rw [routeLoop, e]
    cases ok with
    | false =>
      have : matching (p :: paths) req.URLPath = matching paths req.URLPath := by
        simp [matching, List.filterMap_cons, e]
      rw [this]
      simp only [Bool.not_false, if_true]
      exact ih2 s invoked
    | true =>
      have : matching (p :: paths) req.URLPath = (p, params) :: matching paths req.URLPath := by
        simp [matching, List.filterMap_cons, e]
      rw [this, dispatch]
      simp only [Bool.not_true, Bool.false_eq_true, if_false]
      cases hl : r.handlers.lookup p with
      | none => exact ih2 s invoked
      | some f =>
        simp only []
        cases hb : (f s { httpRequest := req, Params := params }).2 with
        | false => simp
        | true => simp [ih2]

/-- Dispatch for a non-empty request path: if `Preprocess` lets the request
through, `Route` returns normally and invokes the handlers of the matching
patterns in `GetPaths` order, going on after a handler exactly when it called
its continuation. -/
theorem Route_eq_dispatch {σ : Type} (r : Router σ) (hr : Reachable r) (s : σ)
    (req : HttpRequest) (hu : req.URLPath ≠ []) (hc : (Preprocess r s req).con = true) :
    Route r s req
      = dispatch r.handlers req (matching (GetPaths r) req.URLPath)
          (Preprocess r s req).state [] := by
  unfold Route
  simp only [hc, if_true]
  exact routeLoop_eq_dispatch r req hu r.paths _ _ hr.stored

/-- Dispatch invokes a handler for every matching pattern up to the last one
it invokes: the invoked patterns are an initial part of the matching ones. -/
theorem dispatch_invoked {σ : Type} (handlers : List (Str × HandlerFunc σ)) (req : HttpRequest)
    (ms : List (Str × Params)) (hh : ∀ e ∈ ms, ∃ f, handlers.lookup e.1 = some f) :
    ∀ (s : σ) (invoked : List (Str × Params)),
      ∃ done rest, ms = done ++ rest ∧
        (dispatch handlers req ms s invoked).invoked = invoked ++ done ∧
        (dispatch handlers req ms s invoked).fault = false := by
  induction ms with
  | nil => intro s invoked; exact ⟨[], [], rfl, by simp [dispatch], rfl⟩
  | cons e ms ih =>
    intro s invoked
    obtain ⟨p, params⟩ := e
    obtain ⟨f, hf⟩ := hh (p, params) (by simp)
    have ih2 := ih (fun e he => hh e (by simp [he]))
    rw [dispatch, hf]
    simp only []
    cases hb : (f s { httpRequest := req, Params := params }).2 with
    | false => exact ⟨[(p, params)], ms, rfl, by simp, by simp⟩
    | true =>
      simp only [if_true]
      obtain ⟨done, rest, e1, e2, e3⟩ :=
        ih2 (f s { httpRequest := req, Params := params }).1 (invoked ++ [(p, params)])
      exact ⟨(p, params) :: done, rest, by rw [e1]; rfl, by rw [e2]; simp, e3⟩

/-! ## Claims on the matcher -/

/-- C1 (fails on the code): the pattern `/a/:x/`, which `HandleFunc` stores for
`/a/:x`, against the path `/a/b/`.  The capture `x = b` is committed at the
closing `'/'`, but the cursor, which the guard `i < length-1` did not advance,
is then decremented onto the last byte of the name, and the comparison of
`'/'` with `'x'` ends the match: `Route` invokes no handler. -/
theorem C1_trailing_capture_no_match {σ : Type} (h : HandlerFunc σ) (s : σ) :
    normalize (str "/a/:x") = str "/a/:x/" ∧
    isURLMatching (str "/a/:x/") (str "/a/b/") = some ([(str "x", str "b")], false) ∧
    (Route (HandleFunc NewRouter (str "/a/:x") h) s { URLPath := str "/a/b/" }).invoked = [] ∧
    (Route (HandleFunc NewRouter (str "/a/:x") h) s { URLPath := str "/a/b/" }).fault
      = false := by
  have hm : isURLMatching (normalize (str "/a/:x")) (str "/a/b/")
      = some ([(str "x", str "b")], false) := by decide
  have hr := Route_single_no_match (str "/a/:x") (str "/a/b/") h s _ hm
  exact ⟨by decide, by decide, hr.1, hr.2.1⟩

/-- C2 (fails on the code): the pattern `/files/*` against the path
`/files/a/b/c`, and the form `/files/*/` that `HandleFunc` stores for it: both
report no match, and `Route` invokes no handler. -/
theorem C2_trailing_wildcard_no_match {σ : Type} (h : HandlerFunc σ) (s : σ) :
    isURLMatching (str "/files/*") (str "/files/a/b/c") = some ([], false) ∧
    normalize (str "/files/*") = str "/files/*/" ∧
    isURLMatching (str "/files/*/") (str "/files/a/b/c") = some ([], false) ∧
    (Route (HandleFunc NewRouter (str "/files/*") h) s
      { URLPath := str "/files/a/b/c" }).invoked = [] ∧
    (Route (HandleFunc NewRouter (str "/files/*") h) s
      { URLPath := str "/files/a/b/c" }).fault = false := by
  have hm : isURLMatching (normalize (str "/files/*")) (str "/files/a/b/c")
      = some ([], false) := by decide
  have hr := Route_single_no_match (str "/files/*") (str "/files/a/b/c") h s _ hm
  exact ⟨by decide, by decide, by decide, hr.1, hr.2.1⟩

/-- C9: the pattern `*` matches every request path, the empty one included,
with an empty `Params` map. -/
theorem C9_wildcard_matches_every_path (url : Str) :
    isURLMatching (str "*") url = some ([], true) := by
  have h : str "*" = wildcard := by decide
  rw [h]
  simp [isURLMatching]

/-- C10: for a literal prefix `lit` that begins and ends with `'/'` and has
neither `':'` nor `'*'`, and every parameter name, the pattern
`lit ++ ":name/"` does not match the path `lit`. -/
theorem C10_capture_requires_segment (lit name : Str) (_hhead : lit.head? = some slash)
    (hlast : lit.getLast? = some slash) (hc : colon ∉ lit) (hs : star ∉ lit) :
    isURLMatching (lit ++ colon :: name ++ [slash]) lit = some ([], false) :=
  isURLMatching_capture_needs_segment lit name hlast hc hs

/-- C10 at the pattern `/a/:x/` and the path `/a/`. -/
theorem C10_capture_requires_segment_witness :
    isURLMatching (str "/a/" ++ colon :: str "x" ++ [slash]) (str "/a/") = some ([], false) :=
  C10_capture_requires_segment (str "/a/") (str "x") (by decide) (by decide) (by decide)
    (by decide)

/-! ## Claims on registration order -/

/-- C4 (fails on the code): `/.well-known/` is `/` extended by the path
segment `.well-known`, and after `HandleFunc("/.well-known/")` followed by
`HandleFunc("/")` the list `GetPaths` has `/` first.  `Less` takes a relative
path that begins with `'.'` for one that leaves the base (`rel[0] == '.'`), so
`Less("/", "/.well-known/")` is true.  The same for `/a/.b/` and `/a/`.  Two
patterns are sorted by the insertion sort of `sort.Sort`. -/
theorem C4_dot_segment_listed_after :
    str "/.well-known/" = str "/" ++ joinSegs [str ".well-known"] ∧
    Rel (str "/") (str "/.well-known/") = some (str ".well-known") ∧
    pathLess (str "/") (str "/.well-known/") = true ∧
    GetPaths (registerPatterns [str "/.well-known/", str "/"])
      = [str "/", str "/.well-known/"] ∧
    str "/a/.b/" = str "/a/" ++ joinSegs [str ".b"] ∧
    pathLess (str "/a/") (str "/a/.b/") = true ∧
    GetPaths (registerPatterns [str "/a/.b/", str "/a/"])
      = [str "/a/", str "/a/.b/"] := by
  refine ⟨by decide, by decide, by decide, ?_, by decide, by decide, ?_⟩
  · show sortSort (sortSort ([] ++ [normalize (str "/.well-known/")]) ++ [normalize (str "/")])
      = _
    decide
  · show sortSort (sortSort ([] ++ [normalize (str "/a/.b/")]) ++ [normalize (str "/a/")]) = _
    decide

/-- C5: after any sequence of at most 12 `HandleFunc` calls on a fresh router
(every call of `sort.Sort` is then on at most 12 elements, where it is the
insertion sort `sortSort`) every occurrence of `"*"` in `GetPaths` comes after
every pattern that is not `"*"`, and if `"*"` or `""` was registered then the
last element of `GetPaths` is `"*"`. -/
theorem C5_wildcard_sorts_last {σ : Type} (regs : List (Str × HandlerFunc σ))
    (_hlen : regs.length ≤ 12) :
    (∀ (i j : Nat) (p : Str), (GetPaths (registerAll regs))[i]? = some (str "*") →
      (GetPaths (registerAll regs))[j]? = some p → p ≠ str "*" → j < i) ∧
    ((∃ e ∈ regs, e.1 = str "*" ∨ e.1 = str "") →
      (GetPaths (registerAll regs)).getLast? = some (str "*")) := by
  have hw : str "*" = wildcard := by decide
  have he : str "" = [] := by decide
  rw [hw, he]
  have key := registerAll_wildcard_after regs
  unfold GetPaths at key ⊢
  refine ⟨key, ?_⟩
  rintro ⟨e, he1, he2⟩
  have hmem : wildcard ∈ (registerAll regs).paths := by
    apply (registerAll_paths_perm regs).symm.subset
    refine List.mem_map.mpr ⟨e, he1, ?_⟩
    rcases he2 with h | h <;> rw [h] <;> decide
  obtain ⟨i, hi⟩ := List.getElem?_of_mem hmem
  have hne : (registerAll regs).paths ≠ [] := List.ne_nil_of_mem hmem
  rw [List.getLast?_eq_getLast _ hne]
  by_contra hcon
  have hlast : (registerAll regs).paths[(registerAll regs).paths.length - 1]?
      = some ((registerAll regs).paths.getLast hne) := by
    rw [List.getLast_eq_getElem]
    exact List.getElem?_eq_getElem _
  have := key i _ _ hi hlast (fun h => hcon (by rw [h]))
  have := (List.getElem?_eq_some.mp hi).1
  omega

/-- C5 on the registrations `"*"`, `/a/`, `""`, `/b/`. -/
theorem C5_wildcard_sorts_last_witness :
    ([str "*", str "/a/", str "", str "/b/"].map (fun p => (p, passHandler))).length ≤ 12 ∧
    (∃ e ∈ [str "*", str "/a/", str "", str "/b/"].map (fun p => (p, passHandler)),
      e.1 = str "*" ∨ e.1 = str "") ∧
    (GetPaths (registerAll
      ([str "*", str "/a/", str "", str "/b/"].map (fun p => (p, passHandler))))).getLast?
      = some (str "*") :=
  have hm : ∃ e ∈ [str "*", str "/a/", str "", str "/b/"].map (fun p => (p, passHandler)),
      e.1 = str "*" ∨ e.1 = str "" :=
    ⟨(str "*", passHandler), by simp, Or.inl rfl⟩
  ⟨by decide, hm,
    (C5_wildcard_sorts_last
      ([str "*", str "/a/", str "", str "/b/"].map (fun p => (p, passHandler)))
      (by decide)).2 hm⟩

/-! ## Claims on dispatch -/

/-- C3: on a fresh router, after `HandleFunc("/a/*", h1)` and then
`HandleFunc("/a/b/", h2)`, `GetPaths` lists `/a/b/` before the wildcard
pattern, and `Route` on the path `/a/b/` invokes `h2` first and invokes `h1`
after it exactly when `h2` called its continuation. -/
theorem C3_specific_before_wildcard {σ : Type} (h1 h2 : HandlerFunc σ) (s : σ) :
    let r := HandleFunc (HandleFunc NewRouter (str "/a/*") h1) (str "/a/b/") h2
    let req : HttpRequest := { URLPath := str "/a/b/" }
    let out2 := h2 s { httpRequest := req, Params := [] }
    let out1 := h1 out2.1 { httpRequest := req, Params := [] }
    GetPaths r = [str "/a/b/", str "/a/*/"] ∧
    GetHandler r (str "/a/b/") = some h2 ∧
    GetHandler r (str "/a/*/") = some h1 ∧
    (Route r s req).fault = false ∧
    (Route r s req).invoked
      = (if out2.2 then [(str "/a/b/", []), (str "/a/*/", [])] else [(str "/a/b/", [])]) ∧
    (Route r s req).state = (if out2.2 then out1.1 else out2.1) := by
  intro r req out2 out1
  have hp : r.paths = [str "/a/b/", str "/a/*/"] := by
    show (HandleFunc (HandleFunc NewRouter (str "/a/*") h1) (str "/a/b/") h2).paths = _
    rw [HandleFunc_paths, HandleFunc_paths]
    have e0 : (NewRouter : Router σ).paths = [] := rfl
    rw [e0]
    decide
  have hh : r.handlers = [(str "/a/b/", h2), (str "/a/*/", h1)] := by
    show (HandleFunc (HandleFunc NewRouter (str "/a/*") h1) (str "/a/b/") h2).handlers = _
    rw [HandleFunc_handlers, HandleFunc_handlers]
    have e1 : normalize (str "/a/*") = str "/a/*/" := by decide
    have e2 : normalize (str "/a/b/") = str "/a/b/" := by decide
    rw [e1, e2]
    have e3 : str "/a/*/" ≠ str "/a/b/" := by decide
    simp [handlersSet, NewRouter, e3]
  have hpre : r.preprocess = [] := rfl
  have m1 : isURLMatching (str "/a/b/") req.URLPath = some ([], true) := by decide
  have m2 : isURLMatching (str "/a/*/") req.URLPath = some ([], true) := by decide
  have e4 : (str "/a/*/" == str "/a/b/") = false := by decide
  have l1 : r.handlers.lookup (str "/a/b/") = some h2 := by
    rw [hh]; simp [List.lookup]
  have l2 : r.handlers.lookup (str "/a/*/") = some h1 := by
    rw [hh]; simp [List.lookup, e4]
  clear_value r
  refine ⟨hp, l1, l2, ?_, ?_, ?_⟩ <;>
  · simp only [Route, Preprocess, hpre, preprocessLoop, hp, routeLoop, m1, m2, l1, l2]
    cases hb : out2.2 <;> cases hb1 : out1.2 <;> simp [out2, out1] at hb hb1 ⊢

/-- C7 (fails on the code): with the patterns `/a/` and `"*"` registered and a
request whose path is empty, `Preprocess` lets the request through and `"*"`
matches the path, but `Route` invokes no handler: the matcher panics on `/a/`,
where it reads `url[len(url)-1]`, before `"*"` is tried. -/
theorem C7_empty_path_no_dispatch {σ : Type} (hA hW : HandlerFunc σ) (s : σ) :
    let r := HandleFunc (HandleFunc NewRouter (str "/a/") hA) (str "*") hW
    let req : HttpRequest := { URLPath := str "" }
    (Preprocess r s req).con = true ∧
    GetPaths r = [str "/a/", str "*"] ∧
    isURLMatching (str "*") req.URLPath = some ([], true) ∧
    GetHandler r (str "*") = some hW ∧
    isURLMatching (str "/a/") req.URLPath = none ∧
    (Route r s req).invoked = [] ∧
    (Route r s req).fault = true := by
  intro r req
  have hp : r.paths = [str "/a/", str "*"] := by
    show (HandleFunc (HandleFunc NewRouter (str "/a/") hA) (str "*") hW).paths = _
    rw [HandleFunc_paths, HandleFunc_paths]
    have e0 : (NewRouter : Router σ).paths = [] := rfl
    rw [e0]
    decide
  have hh : r.handlers = [(str "*", hW), (str "/a/", hA)] := by
    show (HandleFunc (HandleFunc NewRouter (str "/a/") hA) (str "*") hW).handlers = _
    rw [HandleFunc_handlers, HandleFunc_handlers]
    have e1 : normalize (str "/a/") = str "/a/" := by decide
    have e2 : normalize (str "*") = str "*" := by decide
    rw [e1, e2]
    have e3 : str "/a/" ≠ str "*" := by decide
    simp [handlersSet, NewRouter, e3]
  have hpre : r.preprocess = [] := rfl
  have m1 : isURLMatching (str "/a/") req.URLPath = none := by decide
  have m2 : isURLMatching (str "*") req.URLPath = some ([], true) := by decide
  have l2 : r.handlers.lookup (str "*") = some hW := by
    rw [hh]; simp [List.lookup]
  clear_value r
  refine ⟨?_, hp, m2, l2, m1, ?_, ?_⟩ <;>
    simp only [Route, Preprocess, hpre, preprocessLoop, hp, routeLoop, m1, if_true]

/-! ## Normalisation at registration and the route table -/

/-- A stored pattern is stored unchanged. -/
theorem normalize_of_stored {q : Str} (h : Stored q) : normalize q = q := by
  rcases h with h | h
  · subst h; decide
  · have hne : q ≠ [] := by intro e; rw [e] at h; exact absurd h.1 (by simp)
    unfold normalize
    simp [hne, h.1, h.2]

theorem normalize_idem (p : Str) : normalize (normalize p) = normalize p :=
  normalize_of_stored (normalize_stored p)

/-- The stored form of a pattern other than `""` and `"*"`: the pattern with a
leading `'/'` added when missing and a trailing `'/'` added when missing. -/
theorem normalize_eq (p : Str) (h0 : p ≠ []) (hw : p ≠ wildcard) :
    normalize p = (if p.head? = some slash then [] else [slash]) ++ p ++
      (if p.getLast? = some slash then [] else [slash]) := by
  obtain ⟨c, t, rfl⟩ : ∃ c t, p = c :: t := by
    cases p with
    | nil => exact absurd rfl h0
    | cons c t => exact ⟨c, t, rfl⟩
  have hne : c :: (t ++ [slash]) ≠ wildcard := by
    intro e
    have := congrArg List.length e
    simp [wildcard] at this
  unfold normalize
  rw [if_neg h0]
  by_cases hc : c = slash
  · subst hc
    by_cases hl : (slash :: t).getLast? = some slash <;> simp [hl, hw, hne]
  · by_cases hl : (c :: t).getLast? = some slash <;> simp [hl, hc, hw, hne]

theorem registerAll_reachable {σ : Type} (regs : List (Str × HandlerFunc σ)) :
    Reachable (registerAll regs) := by
  induction regs using List.reverseRecOn with
  | nil => exact Reachable.newRouter
  | append_singleton regs e ih =>
    rw [registerAll_snoc]
    exact Reachable.handleFunc _ _ _ ih

/-- Every key of the map `handlers` is a pattern of `paths`. -/
theorem Reachable.mem_paths {σ : Type} {r : Router σ} (hr : Reachable r) :
    ∀ (q : Str) (f : HandlerFunc σ), r.handlers.lookup q = some f → q ∈ r.paths := by
  induction hr with
  | newRouter => intro q f h; simp [NewRouter] at h
  | handleFunc r p h _ ih =>
    intro q f hq
    rw [HandleFunc_handlers, lookup_handlersSet] at hq
    rw [HandleFunc_paths]
    apply (sortSort_perm _).symm.subset
    by_cases e : q = normalize p
    · simp [e]
    · rw [if_neg e] at hq
      exact List.mem_append_left _ (ih q f hq)
  | handlePreprocess r f _ ih => exact ih

theorem GetHandler_HandleFunc {σ : Type} (r : Router σ) (p q : Str) (h : HandlerFunc σ) :
    GetHandler (HandleFunc r p h) q = if q = normalize p then some h else GetHandler r q := by
  unfold GetHandler
  rw [HandleFunc_handlers, lookup_handlersSet]

theorem HandleFunc_paths_perm {σ : Type} (r : Router σ) (p : Str) (h : HandlerFunc σ) :
    (GetPaths (HandleFunc r p h)).Perm (GetPaths r ++ [normalize p]) := by
  unfold GetPaths
  rw [HandleFunc_paths]
  exact sortSort_perm _

/-- C13: the pattern that `HandleFunc` stores, as the key of the handler and
in `GetPaths`, is `normalize p`.  For `p` other than `""` and `"*"` it begins
and ends with `'/'` and is `p` with only a missing leading `'/'` and a missing
trailing `'/'` added; `""` and `"*"` are stored as `"*"`; and storing the
stored form stores the same string again. -/
theorem C13_pattern_normalisation {σ : Type} (r : Router σ) (p : Str) (h : HandlerFunc σ) :
    GetHandler (HandleFunc r p h) (normalize p) = some h ∧
    normalize p ∈ GetPaths (HandleFunc r p h) ∧
    (p ≠ str "" → p ≠ str "*" →
      (normalize p).head? = some slash ∧ (normalize p).getLast? = some slash ∧
      normalize p = (if p.head? = some slash then [] else [slash]) ++ p ++
        (if p.getLast? = some slash then [] else [slash])) ∧
    normalize (str "") = str "*" ∧
    normalize (str "*") = str "*" ∧
    normalize (normalize p) = normalize p := by
  refine ⟨?_, ?_, ?_, by decide, by decide, normalize_idem p⟩
  · rw [GetHandler_HandleFunc, if_pos rfl]
  · exact (HandleFunc_paths_perm r p h).symm.subset (by simp)
  · intro h0 hw
    have h0 : p ≠ [] := h0
    have hw : p ≠ wildcard := hw
    rcases normalize_stored p with hs | hs
    · exfalso
      rw [normalize_eq p h0 hw] at hs
      have := congrArg List.length hs
      have hp : 0 < p.length := List.length_pos.mpr h0
      simp only [List.length_append, wildcard, List.length_singleton] at this
      have h1 : p.length = 1 := by omega
      obtain ⟨c, rfl⟩ := List.length_eq_one.mp h1
      by_cases hc : c = slash
      · subst hc; simp at hs; exact absurd hs (by decide)
      · simp [hc] at this
    · exact ⟨hs.1, hs.2, normalize_eq p h0 hw⟩

/-- C14 (fails on the code as stated): after two registrations of `/a`,
`GetHandler("/a")` finds nothing: the handler is stored under `/a/`. -/
theorem C14_counterexample :
    normalize (str "/a") = str "/a/" ∧
    GetHandler (HandleFunc (HandleFunc (NewRouter : Router Unit) (str "/a") passHandler)
      (str "/a") passHandler) (str "/a") = none := by
  refine ⟨by decide, ?_⟩
  rw [GetHandler_HandleFunc, if_neg (by decide), GetHandler_HandleFunc, if_neg (by decide)]
  rfl

/-- C14 (amended): after `HandleFunc(p, h1)` followed by `HandleFunc(p, h2)`,
`GetHandler` called with the stored form of `p` returns `(h2, true)`; it does
so with `p` itself when `p` is `"*"` or begins and ends with `'/'`. -/
theorem C14_latest_registration_wins {σ : Type} (r : Router σ) (p : Str)
    (h1 h2 : HandlerFunc σ) :
    GetHandler (HandleFunc (HandleFunc r p h1) p h2) (normalize p) = some h2 ∧
    ((p = str "*" ∨ (p.head? = some slash ∧ p.getLast? = some slash)) →
      GetHandler (HandleFunc (HandleFunc r p h1) p h2) p = some h2) := by
  have e : GetHandler (HandleFunc (HandleFunc r p h1) p h2) (normalize p) = some h2 := by
    rw [GetHandler_HandleFunc, if_pos rfl]
  refine ⟨e, fun hp => ?_⟩
  have hs : Stored p := hp
  rw [normalize_of_stored hs] at e
  exact e

/-- C15: after any sequence of `HandleFunc` calls on a router made by
`NewRouter`, a string occurs in `GetPaths` if and only if `GetHandler` finds it. -/
theorem C15_route_table_invariant {σ : Type} (regs : List (Str × HandlerFunc σ)) (q : Str) :
    q ∈ GetPaths (registerAll regs) ↔ ∃ f, GetHandler (registerAll regs) q = some f := by
  have hr := registerAll_reachable regs
  constructor
  · intro h; exact hr.has_handler q h
  · rintro ⟨f, hf⟩; exact hr.mem_paths q f hf

/-- The number of occurrences of a stored pattern after any registrations. -/
theorem registerAll_countP {σ : Type} (regs : List (Str × HandlerFunc σ)) (q : Str) :
    (GetPaths (registerAll regs)).countP (fun x => decide (x = q))
      = (regs.map (fun e => normalize e.1)).countP (fun x => decide (x = q)) :=
  (registerAll_paths_perm regs).countP_eq _

/-- C20: for every router state, `GetPaths` after `HandleFunc(p, h)` is a
permutation of the previous `GetPaths` with the stored form of `p` added once:
the length grows by one, the number of occurrences of the stored form of `p`
grows by one and no other number of occurrences changes; so after any
registrations on a fresh router a stored pattern occurs as many times as
there were registrations with that stored form. -/
theorem C20_registration_appends {σ : Type} (r : Router σ) (p : Str) (h : HandlerFunc σ) :
    (GetPaths (HandleFunc r p h)).Perm (GetPaths r ++ [normalize p]) ∧
    (GetPaths (HandleFunc r p h)).length = (GetPaths r).length + 1 ∧
    (∀ q : Str, (GetPaths (HandleFunc r p h)).countP (fun x => decide (x = q))
      = (GetPaths r).countP (fun x => decide (x = q)) + (if normalize p = q then 1 else 0)) ∧
    (∀ (regs : List (Str × HandlerFunc σ)) (q : Str),
      (GetPaths (registerAll regs)).countP (fun x => decide (x = q))
        = (regs.map (fun e => normalize e.1)).countP (fun x => decide (x = q))) := by
  have hp := HandleFunc_paths_perm r p h
  refine ⟨hp, ?_, ?_, fun regs q => registerAll_countP regs q⟩
  · rw [hp.length_eq]; simp
  · intro q
    rw [hp.countP_eq, List.countP_append]
    by_cases e : normalize p = q
    · simp [List.countP_cons, e]
    · simp [List.countP_cons, e]

/-- C13 at the pattern `a`, stored as `/a/`. -/
theorem C13_pattern_normalisation_witness :
    (str "a" ≠ str "" ∧ str "a" ≠ str "*") ∧
    ((normalize (str "a")).head? = some slash ∧ (normalize (str "a")).getLast? = some slash ∧
      normalize (str "a") = (if (str "a").head? = some slash then [] else [slash]) ++ str "a" ++
        (if (str "a").getLast? = some slash then [] else [slash])) :=
  ⟨⟨by decide, by decide⟩,
    (C13_pattern_normalisation (NewRouter : Router Unit) (str "a") passHandler).2.2.1
      (by decide) (by decide)⟩

/-- C14 (amended) at the pattern `/a/`, registered twice on a fresh router. -/
theorem C14_latest_registration_wins_witness :
    ((str "/a/").head? = some slash ∧ (str "/a/").getLast? = some slash) ∧
    GetHandler (HandleFunc (HandleFunc (NewRouter : Router Unit) (str "/a/") stopHandler)
      (str "/a/") passHandler) (str "/a/") = some passHandler :=
  ⟨⟨by decide, by decide⟩,
    (C14_latest_registration_wins (NewRouter : Router Unit) (str "/a/") stopHandler
      passHandler).2 (Or.inr ⟨by decide, by decide⟩)⟩

/-! ## Registration order and dispatch -/

/-- C6 (fails on the code): the patterns `/a/*` and `/a/b/` are listed in the
reverse of their registration order, whichever that order is, since `Less` is
true of the two in both directions (`Rel` gives `../b` and `../*`, which begin
with `'.'`).  So the two registration orders give different `GetPaths`, and
after `HandleFunc("/a/b/", h2)` followed by `HandleFunc("/a/*", h1)` a request
for `/a/b/` goes to the wildcard handler `h1` first and reaches `h2` only if
`h1` calls its continuation, while after the registrations in the other order
it goes to `h2` first.  Two patterns are sorted by the insertion sort of
`sort.Sort`. -/
theorem C6_registration_order_changes_dispatch {σ : Type} (h1 h2 : HandlerFunc σ) (s : σ) :
    let r := HandleFunc (HandleFunc NewRouter (str "/a/b/") h2) (str "/a/*") h1
    let r0 := HandleFunc (HandleFunc NewRouter (str "/a/*") h1) (str "/a/b/") h2
    let req : HttpRequest := { URLPath := str "/a/b/" }
    let out1 := h1 s { httpRequest := req, Params := [] }
    let out2 := h2 s { httpRequest := req, Params := [] }
    [str "/a/b/", str "/a/*"].Perm [str "/a/*", str "/a/b/"] ∧
    pathLess (str "/a/b/") (str "/a/*/") = true ∧
    pathLess (str "/a/*/") (str "/a/b/") = true ∧
    GetPaths r = [str "/a/*/", str "/a/b/"] ∧
    GetPaths r0 = [str "/a/b/", str "/a/*/"] ∧
    GetPaths r ≠ GetPaths r0 ∧
    (Route r s req).invoked
      = (if out1.2 then [(str "/a/*/", []), (str "/a/b/", [])] else [(str "/a/*/", [])]) ∧
    (Route r0 s req).invoked
      = (if out2.2 then [(str "/a/b/", []), (str "/a/*/", [])] else [(str "/a/b/", [])]) := by
  intro r r0 req out1 out2
  have e0 : (NewRouter : Router σ).paths = [] := rfl
  have hp : r.paths = [str "/a/*/", str "/a/b/"] := by
    show (HandleFunc (HandleFunc NewRouter (str "/a/b/") h2) (str "/a/*") h1).paths = _
    rw [HandleFunc_paths, HandleFunc_paths, e0]
    decide
  have hp0 : r0.paths = [str "/a/b/", str "/a/*/"] := by
    show (HandleFunc (HandleFunc NewRouter (str "/a/*") h1) (str "/a/b/") h2).paths = _
    rw [HandleFunc_paths, HandleFunc_paths, e0]
    decide
  have n1 : normalize (str "/a/*") = str "/a/*/" := by decide
  have n2 : normalize (str "/a/b/") = str "/a/b/" := by decide
  have e3 : str "/a/*/" ≠ str "/a/b/" := by decide
  have e4 : str "/a/b/" ≠ str "/a/*/" := by decide
  have l1 : r.handlers.lookup (str "/a/*/") = some h1 := by
    show GetHandler (HandleFunc (HandleFunc NewRouter (str "/a/b/") h2) (str "/a/*") h1)
      (str "/a/*/") = some h1
    rw [GetHandler_HandleFunc, n1, if_pos rfl]
  have l2 : r.handlers.lookup (str "/a/b/") = some h2 := by
    show GetHandler (HandleFunc (HandleFunc NewRouter (str "/a/b/") h2) (str "/a/*") h1)
      (str "/a/b/") = some h2
    rw [GetHandler_HandleFunc, n1, if_neg e4, GetHandler_HandleFunc, n2, if_pos rfl]
  have l01 : r0.handlers.lookup (str "/a/*/") = some h1 := by
    show GetHandler (HandleFunc (HandleFunc NewRouter (str "/a/*") h1) (str "/a/b/") h2)
      (str "/a/*/") = some h1
    rw [GetHandler_HandleFunc, n2, if_neg e3, GetHandler_HandleFunc, n1, if_pos rfl]
  have l02 : r0.handlers.lookup (str "/a/b/") = some h2 := by
    show GetHandler (HandleFunc (HandleFunc NewRouter (str "/a/*") h1) (str "/a/b/") h2)
      (str "/a/b/") = some h2
    rw [GetHandler_HandleFunc, n2, if_pos rfl]
  have hpre : r.preprocess = [] := rfl
  have hpre0 : r0.preprocess = [] := rfl
  have m1 : isURLMatching (str "/a/b/") req.URLPath = some ([], true) := by decide
  have m2 : isURLMatching (str "/a/*/") req.URLPath = some ([], true) := by decide
  have hg : GetPaths r = [str "/a/*/", str "/a/b/"] := hp
  have hg0 : GetPaths r0 = [str "/a/b/", str "/a/*/"] := hp0
  clear_value r r0
  refine ⟨List.Perm.swap _ _ _, by decide, by decide, hg, hg0, ?_, ?_, ?_⟩
  · rw [hg, hg0]; decide
  · simp only [Route, Preprocess, hpre, preprocessLoop, hp, routeLoop, m1, m2, l1, l2]
    cases hb : out1.2 <;> simp [out1] at hb ⊢
  · simp only [Route, Preprocess, hpre0, preprocessLoop, hp0, routeLoop, m1, m2, l01, l02]
    cases hb : out2.2 <;> simp [out2] at hb ⊢

/-! ## The interceptor chain -/

theorem stateBefore_cons_succ {σ : Type} (f : PreprocessFunc σ) (fs : List (PreprocessFunc σ))
    (req : HttpRequest) (s : σ) (j : Nat) :
    stateBefore (f :: fs) req s (j + 1) = stateBefore fs req (f s req).1 j := rfl

theorem continues_cons_zero {σ : Type} (f : PreprocessFunc σ) (fs : List (PreprocessFunc σ))
    (req : HttpRequest) (s : σ) : continues (f :: fs) req s 0 = (f s req).2 := by
  simp [continues, stateBefore]

theorem continues_cons_succ {σ : Type} (f : PreprocessFunc σ) (fs : List (PreprocessFunc σ))
    (req : HttpRequest) (s : σ) (j : Nat) :
    continues (f :: fs) req s (j + 1) = continues fs req (f s req).1 j := by
  simp [continues, stateBefore]

/-- The loop of `Preprocess`: it calls the first `m` interceptors in order,
each in the state the one before left, and stops after the first one that
does not call its continuation. -/
theorem preprocessLoop_spec {σ : Type} (req : HttpRequest) (fs : List (PreprocessFunc σ)) :
    ∀ (k : Nat) (s : σ) (called : List Nat),
      ∃ m, m ≤ fs.length ∧
        (preprocessLoop req fs k true s called).called = called ++ List.range' k m ∧
        (preprocessLoop req fs k true s called).state = stateBefore fs req s m ∧
        (∀ j, j + 1 < m → continues fs req s j = true) ∧
        ((preprocessLoop req fs k true s called).con = true →
          m = fs.length ∧ ∀ j, j < m → continues fs req s j = true) ∧
        ((preprocessLoop req fs k true s called).con = false →
          0 < m ∧ continues fs req s (m - 1) = false) := by
  induction fs with
  | nil =>
    intro k s called
    exact ⟨0, le_refl _, by simp [preprocessLoop], rfl, by intro j h; omega,
      fun _ => ⟨rfl, by intro j h; omega⟩, by simp [preprocessLoop]⟩
  | cons f fs ih =>
    intro k s called
    rw [preprocessLoop]
    cases hb : (f s req).2 with
    | false =>
      simp only [Bool.not_false, if_true]
      refine ⟨1, by simp, by simp, rfl, by intro j h; omega, by simp, fun _ => ⟨by omega, ?_⟩⟩
      show continues (f :: fs) req s 0 = false
      rw [continues_cons_zero, hb]
    | true =>
      simp only [Bool.not_true, Bool.false_eq_true, if_false]
      obtain ⟨m, h1, h2, h3, h4, h5, h6⟩ := ih (k + 1) (f s req).1 (called ++ [k])
      refine ⟨m + 1, by simp; omega, ?_, ?_, ?_, ?_, ?_⟩
      · rw [h2, List.range'_succ]; simp
      · rw [h3, stateBefore_cons_succ]
      · intro j hj
        cases j with
        | zero => rw [continues_cons_zero, hb]
        | succ j => rw [continues_cons_succ]; exact h4 j (by omega)
      · intro hc
        obtain ⟨e1, e2⟩ := h5 hc
        refine ⟨by simp [e1], ?_⟩
        intro j hj
        cases j with
        | zero => rw [continues_cons_zero, hb]
        | succ j => rw [continues_cons_succ]; exact e2 j (by omega)
      · intro hc
        obtain ⟨e1, e2⟩ := h6 hc
        refine ⟨by omega, ?_⟩
        have : m + 1 - 1 = (m - 1) + 1 := by omega
        rw [this, continues_cons_succ]
        exact e2

/-- C19: `HandlePreprocess` appends to the chain, and `Preprocess` calls the
interceptors in registration order, from the first, each once: the indices
called are `0, ..., m-1`.  Every interceptor called but the last one called its
continuation; `Preprocess` returns `true` exactly when every registered
interceptor called its continuation (so for an empty chain), and then all were
called; when it returns `false` the last interceptor called is one that did not
call its continuation, and none after it is called. -/
theorem C19_preprocess_chain {σ : Type} (r : Router σ) (s : σ) (req : HttpRequest) :
    (∀ f : PreprocessFunc σ, (HandlePreprocess r f).preprocess = r.preprocess ++ [f]) ∧
    ∃ m, m ≤ r.preprocess.length ∧
      (Preprocess r s req).called = List.range m ∧
      (Preprocess r s req).state = stateBefore r.preprocess req s m ∧
      (∀ j, j + 1 < m → continues r.preprocess req s j = true) ∧
      ((Preprocess r s req).con = true ↔
        ∀ j, j < r.preprocess.length → continues r.preprocess req s j = true) ∧
      ((Preprocess r s req).con = true → m = r.preprocess.length) ∧
      ((Preprocess r s req).con = false →
        0 < m ∧ continues r.preprocess req s (m - 1) = false) := by
  refine ⟨fun f => rfl, ?_⟩
  obtain ⟨m, h1, h2, h3, h4, h5, h6⟩ := preprocessLoop_spec req r.preprocess 0 s []
  refine ⟨m, h1, ?_, h3, h4, ?_, fun hc => (h5 hc).1, h6⟩
  · unfold Preprocess
    rw [h2, List.nil_append, List.range_eq_range']
  · constructor
    · intro hc
      obtain ⟨e1, e2⟩ := h5 hc
      rw [← e1]
      exact e2
    · intro hall
      cases hc : (Preprocess r s req).con with
      | true => rfl
      | false =>
        obtain ⟨e1, e2⟩ := h6 hc
        have := hall (m - 1) (by omega)
        rw [this] at e2
        exact absurd e2 (by decide)

/-! ## Claims on interceptor halting -/

/-- If the interceptor with index `j` does not call its continuation in the
state it is reached in, `Preprocess` returns `false`. -/
theorem Preprocess_con_false {σ : Type} (r : Router σ) (s : σ) (req : HttpRequest) (j : Nat)
    (h : continues r.preprocess req s j = false) : (Preprocess r s req).con = false := by
  have hj : j < r.preprocess.length := by
    by_contra hn
    have e : r.preprocess[j]? = none := List.getElem?_eq_none (by omega)
    simp [continues, e] at h
  obtain ⟨m, _, _, _, _, h5, _⟩ := preprocessLoop_spec req r.preprocess 0 s []
  cases hc : (Preprocess r s req).con with
  | false => rfl
  | true =>
    obtain ⟨e1, e2⟩ := h5 hc
    have := e2 j (by omega)
    rw [h] at this
    exact absurd this (by decide)

/-- C8: for every router, state and request, if some registered interceptor
(the one with index `j`) does not call its continuation when it is run on the
request, in the state that the interceptors before it leave, then `Preprocess`
returns `false` and `Route` invokes no route handler (and returns normally, in
the state `Preprocess` left).  `continues` is `true` for an index beyond the
chain, so `j` is the index of a registered interceptor. -/
theorem C8_interceptor_halts {σ : Type} (r : Router σ) (s : σ) (req : HttpRequest) (j : Nat)
    (h : continues r.preprocess req s j = false) :
    j < r.preprocess.length ∧
    (Preprocess r s req).con = false ∧ (Route r s req).invoked = [] ∧
    (Route r s req).fault = false ∧ (Route r s req).state = (Preprocess r s req).state := by
  have hj : j < r.preprocess.length := by
    by_contra hn
    have e : r.preprocess[j]? = none := List.getElem?_eq_none (by omega)
    simp [continues, e] at h
  have hc : (Preprocess r s req).con = false := Preprocess_con_false r s req j h
  refine ⟨hj, hc, ?_, ?_, ?_⟩ <;> simp [Route, hc]

/-- C8 on a router with the pattern `"*"` and two interceptors: the first
continues and changes the state from `0` to `1`, the second halts in the state
`1` (in the state `0` it would continue). -/
theorem C8_interceptor_halts_witness :
    (haltAtOne 0 { URLPath := str "/a" }).2 = true ∧
    continues (HandlePreprocess (HandlePreprocess (HandleFunc (NewRouter : Router Nat) (str "*")
        (fun s _ => (s, true))) countInterceptor) haltAtOne).preprocess
      { URLPath := str "/a" } 0 1 = false ∧
    (Route (HandlePreprocess (HandlePreprocess (HandleFunc (NewRouter : Router Nat) (str "*")
        (fun s _ => (s, true))) countInterceptor) haltAtOne) 0 { URLPath := str "/a" }).invoked
      = [] :=
  have h : continues (HandlePreprocess (HandlePreprocess (HandleFunc (NewRouter : Router Nat)
        (str "*") (fun s _ => (s, true))) countInterceptor) haltAtOne).preprocess
      { URLPath := str "/a" } 0 1 = false := by decide
  ⟨by decide, h, (C8_interceptor_halts _ 0 { URLPath := str "/a" } 1 h).2.2.1⟩

/-! ## Request-path normalisation and literal patterns -/

/-- A request path that does not end in `'/'` is matched as the path with a
`'/'` appended. -/
theorem isURLMatching_append_slash (path url : Str) (l : Nat) (hl : url.getLast? = some l)
    (hne : l ≠ slash) : isURLMatching path url = isURLMatching path (url ++ [slash]) := by
  unfold isURLMatching
  by_cases hw : path = wildcard
  · rw [if_pos hw, if_pos hw]
  · rw [if_neg hw, if_neg hw, hl, List.getLast?_concat]
    simp [hne]

/-- `Route` on a fresh router with one pattern on which the matcher panics. -/
theorem Route_single_fault {σ : Type} (p url : Str) (h : HandlerFunc σ) (s : σ)
    (hm : isURLMatching (normalize p) url = none) :
    (Route (HandleFunc NewRouter p h) s { URLPath := url }).invoked = [] ∧
    (Route (HandleFunc NewRouter p h) s { URLPath := url }).fault = true := by
  have hp : (HandleFunc (NewRouter : Router σ) p h).paths = [normalize p] := by
    rw [HandleFunc_paths]
    rfl
  have hpre : (HandleFunc (NewRouter : Router σ) p h).preprocess = [] := rfl
  simp [Route, Preprocess, hpre, preprocessLoop, hp, routeLoop, hm]

/-- `Route` on a fresh router with one pattern that matches the request path:
the handler is invoked. -/
theorem Route_single_match {σ : Type} (p url : Str) (h : HandlerFunc σ) (s : σ)
    (ps : Params) (hm : isURLMatching (normalize p) url = some (ps, true)) :
    (Route (HandleFunc NewRouter p h) s { URLPath := url }).invoked = [(normalize p, ps)] ∧
    (Route (HandleFunc NewRouter p h) s { URLPath := url }).fault = false ∧
    (Route (HandleFunc NewRouter p h) s { URLPath := url }).state
      = (h s { httpRequest := { URLPath := url }, Params := ps }).1 := by
  have hp : (HandleFunc (NewRouter : Router σ) p h).paths = [normalize p] := by
    rw [HandleFunc_paths]
    rfl
  have hpre : (HandleFunc (NewRouter : Router σ) p h).preprocess = [] := rfl
  have hl : (HandleFunc (NewRouter : Router σ) p h).handlers.lookup (normalize p) = some h := by
    rw [HandleFunc_handlers, lookup_handlersSet, if_pos rfl]
  simp only [Route, Preprocess, hpre, preprocessLoop, hp, routeLoop, hm, hl, if_true]
  cases hb : (h s { httpRequest := { URLPath := url }, Params := ps }).2 <;> simp [routeLoop]

/-- One iteration on a `'/'` with the cursor on the final `'/'` of the
pattern, outside a capture or wildcard region: the cursor stays. -/
theorem matchStep_lastSlash (path : Str) (n : Nat) (key value : Str) (ps : Params)
    (hn : path[n]? = some slash) (hlen : n + 1 = path.length) :
    matchStep path ⟨n, false, false, key, value, ps⟩ slash
      = StepResult.next ⟨n, false, false, key, value, ps⟩ := by
  have hk2 : ¬ (n : Int) < (path.length : Int) - 1 := by omega
  simp [matchStep, byteAt_natCast, hn, hk2]

/-- With the cursor on the final `'/'` of the pattern every further `'/'` of
the path is accepted. -/
theorem matchLoop_lastSlash (path : Str) (n : Nat) (hn : path[n]? = some slash)
    (hlen : n + 1 = path.length) (k : Nat) (key value : Str) (ps : Params) :
    matchLoop path (List.replicate (k + 1) slash) ⟨n, false, false, key, value, ps⟩ 0
      = some (ps, true) := by
  have aux : ∀ (k : Nat) (b : Nat), b = slash →
      matchLoop path (List.replicate k slash) ⟨n, false, false, key, value, ps⟩ b
        = some (ps, true) := by
    intro k
    induction k with
    | zero => intro b hb; simp [matchLoop, byteAt_natCast, hn, hb]
    | succ k ih =>
      intro b _
      rw [List.replicate_succ, matchLoop, matchStep_lastSlash path n key value ps hn hlen]
      exact ih slash rfl
  rw [List.replicate_succ, matchLoop, matchStep_lastSlash path n key value ps hn hlen]
  exact aux k slash rfl

/-- A literal pattern matches itself, and also itself followed by any number
of further `'/'`. -/
theorem isURLMatching_literal_slashes (lit : Str) (k : Nat) (hc : colon ∉ lit)
    (hs : star ∉ lit) :
    isURLMatching (lit ++ [slash]) (lit ++ List.replicate (k + 1) slash) = some ([], true) := by
  have hne : lit ++ [slash] ≠ wildcard := by
    intro e
    have h1 : (lit ++ [slash]).getLast? = wildcard.getLast? := by rw [e]
    rw [List.getLast?_concat] at h1
    exact absurd h1 (by decide)
  have hl : (lit ++ List.replicate (k + 1) slash).getLast? = some slash := by
    rw [List.replicate_succ', ← List.append_assoc, List.getLast?_concat]
  unfold isURLMatching
  rw [if_neg hne, hl]
  simp only [ne_eq, not_true_eq_false, if_false]
  have h1 := matchLoop_literal lit [] [slash] (List.replicate (k + 1) slash) [] [] [] 0
    (by simp) hc hs
  simp only [List.nil_append, List.length_nil, Nat.zero_add] at h1
  show matchLoop _ _ ⟨((0 : Nat) : Int), false, false, [], [], []⟩ 0 = _
  rw [h1]
  have hn : (lit ++ [slash])[lit.length]? = some slash := by
    rw [List.getElem?_append_right (le_refl _)]; simp
  have aux : ∀ b, matchLoop (lit ++ [slash]) (List.replicate (k + 1) slash)
      ⟨lit.length, false, false, [], [], []⟩ b = some ([], true) := by
    intro b
    rw [List.replicate_succ, matchLoop,
      matchStep_lastSlash _ lit.length [] [] [] hn (by simp)]
    have := matchLoop_lastSlash (lit ++ [slash]) lit.length hn (by simp) k [] [] []
    rw [List.replicate_succ, matchLoop,
      matchStep_lastSlash _ lit.length [] [] [] hn (by simp)] at this
    exact this
  exact aux _

/-! ## A wildcard segment in registered form -/

/-- One iteration on a byte other than `'/'` with the cursor on a `'*'`,
outside a capture: the wildcard region is open and the cursor stays. -/
theorem matchStep_star_byte (path : Str) (n : Nat) (x : Nat) (w : Bool) (key value : Str)
    (ps : Params) (hn : path[n]? = some star) (hx : x ≠ slash) :
    matchStep path ⟨n, w, false, key, value, ps⟩ x
      = StepResult.next ⟨n, true, false, key, value, ps⟩ := by
  simp [matchStep, byteAt_natCast, hn, hx]

/-- The loop on a path segment with the cursor on a `'*'`. -/
theorem matchLoop_star_seg (path : Str) (n : Nat) (hn : path[n]? = some star) (seg : Str) :
    ∀ (rest : Str) (w : Bool) (key value : Str) (ps : Params) (b : Nat),
      slash ∉ seg → seg ≠ [] →
      matchLoop path (seg ++ rest) ⟨n, w, false, key, value, ps⟩ b
        = matchLoop path rest ⟨n, true, false, key, value, ps⟩ (seg.getLastD b) := by
  induction seg with
  | nil => intro rest w key value ps b _ h; exact absurd rfl h
  | cons x seg ih =>
    intro rest w key value ps b hs _
    have hx : x ≠ slash := fun e => hs (by simp [e])
    have hs2 : slash ∉ seg := fun e => hs (List.mem_cons_of_mem _ e)
    show matchLoop path (x :: (seg ++ rest)) _ _ = _
    rw [matchLoop, matchStep_star_byte path n x w key value ps hn hx, List.getLastD_cons]
    simp only []
    by_cases hseg : seg = []
    · subst hseg; rfl
    · exact ih rest true key value ps x hs2 hseg

/-- One iteration on a `'/'` that closes the wildcard region of a `'*'`
followed by the final `'/'` of the pattern. -/
theorem matchStep_star_close (path : Str) (n : Nat) (key value : Str) (ps : Params)
    (hn1 : path[n + 1]? = some slash) (hlen : n + 2 = path.length) :
    matchStep path ⟨n, true, false, key, value, ps⟩ slash
      = StepResult.next ⟨(n + 1 : Nat), false, false, key, value, ps⟩ := by
  have hk1 : (n : Int) < (path.length : Int) - 1 := by omega
  have hk2 : ¬ (n : Int) + 1 < (path.length : Int) - 1 := by omega
  have e : ((n : Int) + 1) = ((n + 1 : Nat) : Int) := by simp
  simp only [matchStep, hk1, and_self, if_true, Bool.false_eq_true, if_false, e, byteAt_natCast,
    hn1]
  simp [hk2]

/-- One iteration on a byte other than `'/'` with the cursor on the final
`'/'` of the pattern: the match fails. -/
theorem matchStep_lastSlash_other (path : Str) (n : Nat) (x : Nat) (key value : Str)
    (ps : Params) (hn : path[n]? = some slash) (hlen : n + 1 = path.length) (hx : x ≠ slash) :
    matchStep path ⟨n, false, false, key, value, ps⟩ x = StepResult.ret ps := by
  have hk2 : ¬ (n : Int) < (path.length : Int) - 1 := by omega
  simp [matchStep, byteAt_natCast, hn, hk2, hx]

theorem inter_getLast (segs : List Str) (hne : segs ≠ [])
    (hseg : ∀ s ∈ segs, s ≠ [] ∧ slash ∉ s) :
    ∃ l, (inter segs).getLast? = some l ∧ l ≠ slash := by
  induction segs with
  | nil => exact absurd rfl hne
  | cons a segs ih =>
    cases segs with
    | nil =>
      obtain ⟨h1, h2⟩ := hseg a (by simp)
      refine ⟨a.getLast h1, List.getLast?_eq_getLast _ h1, ?_⟩
      intro e
      exact h2 (e ▸ List.getLast_mem h1)
    | cons b r =>
      obtain ⟨l, h1, h2⟩ := ih (by simp) (fun s hs => hseg s (by simp [hs]))
      refine ⟨l, ?_, h2⟩
      show (a ++ slash :: inter (b :: r)).getLast? = some l
      have hne2 : inter (b :: r) ≠ [] := by intro e; rw [e] at h1; simp at h1
      rw [← List.singleton_append, ← List.append_assoc,
        List.getLast?_append_of_ne_nil _ hne2]
      exact h1

/-- The registered form of a trailing wildcard after a literal prefix matches
the prefix followed by path segments exactly when there is one segment. -/
theorem isURLMatching_star_slash (lit : Str) (segs : List Str)
    (hc : colon ∉ lit) (hs : star ∉ lit) (hne : segs ≠ [])
    (hseg : ∀ s ∈ segs, s ≠ [] ∧ slash ∉ s) :
    isURLMatching (lit ++ [star, slash]) (lit ++ inter segs)
      = some ([], decide (segs.length = 1)) := by
  have hnw : lit ++ [star, slash] ≠ wildcard := by
    intro e
    have := congrArg List.length e
    simp [wildcard] at this
  obtain ⟨l, hl1, hl2⟩ := inter_getLast segs hne hseg
  have hine : inter segs ≠ [] := by intro e; rw [e] at hl1; simp at hl1
  have hl : (lit ++ inter segs).getLast? = some l := by
    rw [List.getLast?_append_of_ne_nil _ hine]; exact hl1
  unfold isURLMatching
  rw [if_neg hnw, hl]
  simp only [ne_eq, hl2, not_false_eq_true, if_true]
  have h1 := matchLoop_literal lit [] [star, slash] (inter segs ++ [slash]) [] [] [] 0
    (by simp) hc hs
  simp only [List.nil_append, List.length_nil, Nat.zero_add] at h1
  show matchLoop _ _ ⟨((0 : Nat) : Int), false, false, [], [], []⟩ 0 = _
  rw [List.append_assoc, h1]
  have hn : (lit ++ [star, slash])[lit.length]? = some star := by
    rw [List.getElem?_append_right (le_refl _)]; simp
  have hn1 : (lit ++ [star, slash])[lit.length + 1]? = some slash := by
    rw [List.getElem?_append_right (by omega)]; simp
  have hlen : lit.length + 2 = (lit ++ [star, slash]).length := by simp
  obtain ⟨a, r, rfl⟩ : ∃ a r, segs = a :: r := by
    cases segs with
    | nil => exact absurd rfl hne
    | cons a r => exact ⟨a, r, rfl⟩
  obtain ⟨ha1, ha2⟩ := hseg a (by simp)
  cases r with
  | nil =>
    show matchLoop _ (a ++ [slash]) _ _ = _
    rw [matchLoop_star_seg _ lit.length hn a [slash] false [] [] [] _ ha2 ha1, matchLoop,
      matchStep_star_close _ lit.length [] [] [] hn1 hlen]
    simp only []
    rw [matchLoop, byteAt_natCast, hn1]
    simp
  | cons b r =>
    obtain ⟨hb1, hb2⟩ := hseg b (by simp)
    obtain ⟨x, b1, rfl⟩ : ∃ x t, b = x :: t := by
      cases b with
      | nil => exact absurd rfl hb1
      | cons x t => exact ⟨x, t, rfl⟩
    have hx : x ≠ slash := fun e => hb2 (by simp [e])
    have e : inter (a :: (x :: b1) :: r) ++ [slash]
        = a ++ slash :: x :: (List.drop 1 (inter ((x :: b1) :: r)) ++ [slash]) := by
      show (a ++ slash :: inter ((x :: b1) :: r)) ++ [slash] = _
      cases r with
      | nil => simp [inter]
      | cons c r => simp [inter]
    rw [e, matchLoop_star_seg _ lit.length hn a _ false [] [] [] _ ha2 ha1, matchLoop,
      matchStep_star_close _ lit.length [] [] [] hn1 hlen]
    simp only []
    rw [matchLoop, matchStep_lastSlash_other _ (lit.length + 1) x [] [] [] hn1 (by omega) hx]
    simp

/-! ## Captures closed inside the pattern -/

theorem byteToString_ascii (b : Nat) (h : b < 128) : byteToString b = [b] := by
  simp [byteToString, h]

/-- The loop that reads the name of a capture: on an ASCII name followed by
`'/'` it stops on the `'/'` with the name read. -/
theorem keyLoop_name (name : Str) : ∀ (pre suf key : Str) (fuel : Nat),
    slash ∉ name → (∀ b ∈ name, b < 128) → suf ≠ [] → name.length ≤ fuel →
    keyLoop (pre ++ name ++ slash :: suf) (pre ++ name ++ slash :: suf).length fuel
        (pre.length : Nat) key
      = some (((pre.length + name.length : Nat) : Int), key ++ name) := by
  induction name with
  | nil =>
    intro pre suf key fuel _ _ hsuf _
    have hpos : 0 < suf.length := List.length_pos.mpr hsuf
    cases fuel with
    | zero => simp [keyLoop]
    | succ fuel =>
      have hidx : (pre ++ [] ++ slash :: suf)[pre.length]? = some slash := by
        rw [List.append_nil, List.getElem?_append_right (le_refl _)]; simp
      have hlt : ((pre.length : Nat) : Int) < ((pre ++ [] ++ slash :: suf).length : Int) - 1 := by
        simp only [List.append_nil, List.length_append, List.length_cons]
        push_cast
        omega
      rw [keyLoop, if_pos hlt, byteAt_natCast, hidx]
      simp
  | cons c name ih =>
    intro pre suf key fuel hs ha hsuf hf
    have hc : c ≠ slash := fun e => hs (by simp [e])
    have hs2 : slash ∉ name := fun e => hs (List.mem_cons_of_mem _ e)
    have hc128 : c < 128 := ha c (by simp)
    have ha2 : ∀ b ∈ name, b < 128 := fun b hb => ha b (List.mem_cons_of_mem _ hb)
    cases fuel with
    | zero => simp at hf
    | succ fuel =>
      have hidx : (pre ++ c :: name ++ slash :: suf)[pre.length]? = some c := by
        rw [List.append_assoc, List.getElem?_append_right (le_refl _)]; simp
      have hlt : ((pre.length : Nat) : Int)
          < ((pre ++ c :: name ++ slash :: suf).length : Int) - 1 := by
        simp only [List.length_append, List.length_cons]
        push_cast
        omega
      rw [keyLoop, if_pos hlt, byteAt_natCast, hidx]
      simp only [ne_eq, hc, not_false_eq_true, if_true]
      have ih2 := ih (pre ++ [c]) suf (key ++ byteToString c) fuel hs2 ha2 hsuf
        (by simp at hf; omega)
      have e1 : pre ++ [c] ++ name ++ slash :: suf = pre ++ c :: name ++ slash :: suf := by simp
      rw [e1] at ih2
      have e2 : (((pre ++ [c]).length : Nat) : Int) = ((pre.length : Nat) : Int) + 1 := by simp
      rw [e2] at ih2
      rw [ih2, byteToString_ascii c hc128]
      simp
      omega

/-- The first byte of a path segment with the cursor on the `':'` of a
capture: the name is read and the capture region opens. -/
theorem matchStep_capture_open (pre name suf : Str) (x : Nat) (key value : Str) (ps : Params)
    (hs : slash ∉ name) (ha : ∀ b ∈ name, b < 128) (hsuf : suf ≠ []) (hx : x ≠ slash)
    (hx128 : x < 128) :
    matchStep (pre ++ colon :: name ++ slash :: suf) ⟨(pre.length : Nat), false, false, key,
        value, ps⟩ x
      = StepResult.next ⟨((pre.length + 1 + name.length : Nat) : Int), true, true, key ++ name,
          value ++ [x], ps⟩ := by
  have hidx : (pre ++ colon :: name ++ slash :: suf)[pre.length]? = some colon := by
    rw [List.append_assoc, List.getElem?_append_right (le_refl _)]; simp
  have e1 : pre ++ colon :: name ++ slash :: suf = (pre ++ [colon]) ++ name ++ slash :: suf := by
    simp
  have hk := keyLoop_name name (pre ++ [colon]) suf key
    (((pre ++ colon :: name ++ slash :: suf).length : Int) - 1
      - (((pre.length : Nat) : Int) + 1)).toNat hs ha hsuf
    (by simp only [List.length_append, List.length_cons]; push_cast; omega)
  rw [← e1] at hk
  have e2 : (((pre ++ [colon]).length : Nat) : Int) = ((pre.length : Nat) : Int) + 1 := by simp
  rw [e2] at hk
  have e3 : (pre ++ [colon]).length + name.length = pre.length + 1 + name.length := by simp
  rw [e3] at hk
  simp only [matchStep, hx, if_false, byteAt_natCast, hidx, if_true, hk,
    byteToString_ascii x hx128]

/-- A further byte of a path segment inside a capture region: it is appended
to the value. -/
theorem matchStep_capture_byte (path : Str) (n : Nat) (x : Nat) (key value : Str)
    (ps : Params) (hn : path[n]? = some slash) (hx : x ≠ slash) (hx128 : x < 128) :
    matchStep path ⟨n, true, true, key, value, ps⟩ x
      = StepResult.next ⟨n, true, true, key, value ++ [x], ps⟩ := by
  have h1 : slash ≠ colon := by decide
  have h2 : slash ≠ star := by decide
  simp [matchStep, hx, byteAt_natCast, hn, byteToString_ascii x hx128]

/-- The `'/'` that closes a capture inside the pattern: the capture is
committed and the cursor moves past the `'/'` of the pattern. -/
theorem matchStep_capture_close (path : Str) (n : Nat) (key value : Str) (ps : Params)
    (hn : path[n]? = some slash) (hlt : n + 1 < path.length) :
    matchStep path ⟨n, true, true, key, value, ps⟩ slash
      = StepResult.next ⟨((n + 1 : Nat) : Int), false, false, [], [], ps.set key value⟩ := by
  have hk1 : (n : Int) < (path.length : Int) - 1 := by omega
  simp [matchStep, hk1, byteAt_natCast, hn]

theorem matchLoop_capture_bytes (path : Str) (n : Nat) (hn : path[n]? = some slash)
    (vs : Str) : ∀ (rest : Str) (key value : Str) (ps : Params) (b : Nat),
      slash ∉ vs → (∀ x ∈ vs, x < 128) →
      matchLoop path (vs ++ rest) ⟨n, true, true, key, value, ps⟩ b
        = matchLoop path rest ⟨n, true, true, key, value ++ vs, ps⟩ (vs.getLastD b) := by
  induction vs with
  | nil => intro rest key value ps b _ _; simp
  | cons x vs ih =>
    intro rest key value ps b hs ha
    have hx : x ≠ slash := fun e => hs (by simp [e])
    have hs2 : slash ∉ vs := fun e => hs (List.mem_cons_of_mem _ e)
    show matchLoop path (x :: (vs ++ rest)) _ _ = _
    rw [matchLoop, matchStep_capture_byte path n x key value ps hn hx (ha x (by simp)),
      List.getLastD_cons]
    simp only []
    rw [ih rest key (value ++ [x]) ps x hs2 (fun y hy => ha y (List.mem_cons_of_mem _ hy))]
    simp

/-- The loop on the path segment that stands in the place of a capture, and
the `'/'` after it. -/
theorem matchLoop_capture (pre name suf value rest : Str) (ps : Params) (b : Nat)
    (hs : slash ∉ name) (ha : ∀ x ∈ name, x < 128) (hsuf : suf ≠ []) (hv : value ≠ [])
    (hvs : slash ∉ value) (hva : ∀ x ∈ value, x < 128) :
    matchLoop (pre ++ colon :: name ++ slash :: suf) (value ++ slash :: rest)
        ⟨(pre.length : Nat), false, false, [], [], ps⟩ b
      = matchLoop (pre ++ colon :: name ++ slash :: suf) rest
          ⟨((pre.length + 1 + name.length + 1 : Nat) : Int), false, false, [], [],
            ps.set name value⟩ slash := by
  obtain ⟨x, vs, rfl⟩ : ∃ x vs, value = x :: vs := by
    cases value with
    | nil => exact absurd rfl hv
    | cons x vs => exact ⟨x, vs, rfl⟩
  have hx : x ≠ slash := fun e => hvs (by simp [e])
  have hvs2 : slash ∉ vs := fun e => hvs (List.mem_cons_of_mem _ e)
  have hn : (pre ++ colon :: name ++ slash :: suf)[pre.length + 1 + name.length]?
      = some slash := by
    have e : pre ++ colon :: name ++ slash :: suf = (pre ++ colon :: name) ++ slash :: suf := by
      simp
    rw [e, List.getElem?_append_right (by simp; omega)]
    simp
    have : pre.length + 1 + name.length - (pre.length + (name.length + 1)) = 0 := by omega
    rw [this]; simp
  have hlt : pre.length + 1 + name.length + 1 < (pre ++ colon :: name ++ slash :: suf).length := by
    have : 0 < suf.length := List.length_pos.mpr hsuf
    simp; omega
  show matchLoop _ (x :: (vs ++ slash :: rest)) _ _ = _
  rw [matchLoop, matchStep_capture_open pre name suf x [] [] ps hs ha hsuf hx (hva x (by simp))]
  simp only [List.nil_append]
  rw [matchLoop_capture_bytes _ _ hn vs _ name [x] ps x hvs2
    (fun y hy => hva y (List.mem_cons_of_mem _ hy)), matchLoop,
    matchStep_capture_close _ _ name ([x] ++ vs) ps hn hlt]
  rfl

theorem joinSegs_single (s : Str) : joinSegs [s] = s ++ [slash] := by
  simp [joinSegs]

theorem joinSegs_cons_ne_nil (s : Str) (ss : List Str) : joinSegs (s :: ss) ≠ [] := by
  simp [joinSegs_cons]

/-- The loop on a pattern of literal and capture segments that ends in a
literal segment, against the path with a value in the place of every capture:
every capture is committed and the match succeeds. -/
theorem matchLoop_segments (segs : List PSeg) : ∀ (pre : Str) (ps : Params) (b : Nat),
    (∀ seg ∈ segs, seg.Ok) → (∃ s, segs.getLast? = some (PSeg.lit s)) →
    matchLoop (pre ++ joinSegs (segs.map PSeg.pat)) (joinSegs (segs.map PSeg.url))
        ⟨(pre.length : Nat), false, false, [], [], ps⟩ b
      = some (capturesFrom ps segs, true) := by
  induction segs with
  | nil => intro pre ps b _ h; simp at h
  | cons seg rest ih =>
    intro pre ps b hok hlast
    by_cases hrest : rest = []
    · subst hrest
      obtain ⟨s, hs⟩ := hlast
      simp only [List.getLast?_singleton, Option.some.injEq] at hs
      subst hs
      obtain ⟨_, hc, hst⟩ : slash ∉ s ∧ colon ∉ s ∧ star ∉ s := hok (PSeg.lit s) (by simp)
      simp only [List.map_cons, List.map_nil, PSeg.pat, PSeg.url, joinSegs_single]
      have h1 := matchLoop_literal s pre [slash] [slash] [] [] ps b (by simp) hc hst
      rw [← List.append_assoc, h1]
      have hn : (pre ++ s ++ [slash])[pre.length + s.length]? = some slash := by
        rw [List.getElem?_append_right (by simp)]; simp
      rw [matchLoop, matchStep_lastSlash _ _ [] [] ps hn (by simp; omega)]
      simp only []
      rw [matchLoop, byteAt_natCast, hn]
      rfl
    · have hlast2 : ∃ s, rest.getLast? = some (PSeg.lit s) := by
        obtain ⟨s, hs⟩ := hlast
        rw [List.getLast?_cons] at hs
        cases hr : rest.getLast? with
        | none => exact absurd (List.getLast?_eq_none_iff.mp hr) hrest
        | some x =>
          rw [hr] at hs
          simp only [Option.getD_some, Option.some.injEq] at hs
          exact ⟨s, by rw [hs]⟩
      have hok2 : ∀ sg ∈ rest, sg.Ok := fun sg h => hok sg (List.mem_cons_of_mem _ h)
      have hsuf : joinSegs (rest.map PSeg.pat) ≠ [] := by
        cases rest with
        | nil => exact absurd rfl hrest
        | cons a r => exact joinSegs_cons_ne_nil _ _
      cases seg with
      | lit s =>
        obtain ⟨hsl, hc, hst⟩ : slash ∉ s ∧ colon ∉ s ∧ star ∉ s := hok (PSeg.lit s) (by simp)
        simp only [List.map_cons, PSeg.pat, PSeg.url, joinSegs_cons]
        have hc2 : colon ∉ s ++ [slash] := by simp [hc]
        have hst2 : star ∉ s ++ [slash] := by simp [hst]
        have h1 := matchLoop_literal (s ++ [slash]) pre (joinSegs (rest.map PSeg.pat))
          (joinSegs (rest.map PSeg.url)) [] [] ps b hsuf hc2 hst2
        have e1 : pre ++ (s ++ [slash]) ++ joinSegs (rest.map PSeg.pat)
            = pre ++ (s ++ slash :: joinSegs (rest.map PSeg.pat)) := by simp
        have e2 : s ++ [slash] ++ joinSegs (rest.map PSeg.url)
            = s ++ slash :: joinSegs (rest.map PSeg.url) := by simp
        rw [e1, e2] at h1
        rw [h1]
        have ih2 := ih (pre ++ (s ++ [slash])) ps ((s ++ [slash]).getLastD b) hok2 hlast2
        rw [e1] at ih2
        have e3 : (pre ++ (s ++ [slash])).length = pre.length + (s ++ [slash]).length := by simp
        rw [e3] at ih2
        rw [ih2]
        rfl
      | cap name value =>
        obtain ⟨hns, hna, hv, hvs, hva⟩ := hok (PSeg.cap name value) (by simp)
        simp only [List.map_cons, PSeg.pat, PSeg.url, joinSegs_cons]
        have h1 := matchLoop_capture pre name (joinSegs (rest.map PSeg.pat)) value
          (joinSegs (rest.map PSeg.url)) ps b hns hna hsuf hv hvs hva
        have e1 : pre ++ colon :: name ++ slash :: joinSegs (rest.map PSeg.pat)
            = pre ++ (colon :: name ++ slash :: joinSegs (rest.map PSeg.pat)) := by simp
        rw [e1] at h1
        rw [h1]
        have ih2 := ih (pre ++ colon :: name ++ [slash]) (ps.set name value) slash hok2 hlast2
        have e2 : pre ++ colon :: name ++ [slash] ++ joinSegs (rest.map PSeg.pat)
            = pre ++ (colon :: name ++ slash :: joinSegs (rest.map PSeg.pat)) := by simp
        have e3 : (pre ++ colon :: name ++ [slash]).length = pre.length + 1 + name.length + 1 := by
          simp; omega
        rw [e2, e3] at ih2
        rw [ih2]
        rfl

theorem joinSegs_getLast (ss : List Str) (h : ss ≠ []) : (joinSegs ss).getLast? = some slash := by
  induction ss with
  | nil => exact absurd rfl h
  | cons s ss ih =>
    by_cases hss : ss = []
    · subst hss
      rw [joinSegs_single, List.getLast?_concat]
    · rw [joinSegs_cons, ← List.singleton_append, ← List.append_assoc,
        List.getLast?_append_of_ne_nil _ (joinSegs_ne_nil hss)]
      exact ih hss

/-- A pattern of literal and capture segments that ends in a literal segment
matches the path that has an ASCII value in the place of every capture, and
`Params` holds the assignments of the captures. -/
theorem isURLMatching_segments (segs : List PSeg) (hok : ∀ seg ∈ segs, seg.Ok)
    (hlast : ∃ s, segs.getLast? = some (PSeg.lit s)) :
    isURLMatching (patternOf segs) (urlOf segs) = some (capturesFrom [] segs, true) := by
  have hne : segs ≠ [] := by
    intro e; rw [e] at hlast; simp at hlast
  have hpne : segs.map PSeg.pat ≠ [] := by simpa using hne
  have hune : segs.map PSeg.url ≠ [] := by simpa using hne
  have hnw : patternOf segs ≠ wildcard := by
    intro e
    have h1 : (patternOf segs).head? = wildcard.head? := by rw [e]
    exact absurd h1 (by simp [patternOf, wildcard])
  have hl : (urlOf segs).getLast? = some slash := by
    unfold urlOf
    rw [← List.singleton_append, List.getLast?_append_of_ne_nil _ (joinSegs_ne_nil hune)]
    exact joinSegs_getLast _ hune
  unfold isURLMatching
  rw [if_neg hnw, hl]
  simp only [ne_eq, not_true_eq_false, if_false]
  have hlen : 0 + 1 < (patternOf segs).length := by
    have : 0 < (joinSegs (segs.map PSeg.pat)).length :=
      List.length_pos.mpr (joinSegs_ne_nil hpne)
    simp [patternOf]; omega
  have hstep := matchStep_literal (patternOf segs) 0 slash [] [] [] (by simp [patternOf])
    (by decide) (by decide) hlen
  show matchLoop (patternOf segs) (slash :: joinSegs (segs.map PSeg.url))
    ⟨((0 : Nat) : Int), false, false, [], [], []⟩ 0 = _
  rw [matchLoop, hstep]
  exact matchLoop_segments segs [slash] [] slash hok hlast

/-- The same for a request path without its trailing `'/'`. -/
theorem isURLMatching_segments_open (segs : List PSeg) (hok : ∀ seg ∈ segs, seg.Ok)
    (hlast : ∃ s, segs.getLast? = some (PSeg.lit s)) (url : Str) (l : Nat)
    (hu : url ++ [slash] = urlOf segs) (hl : url.getLast? = some l) (hne : l ≠ slash) :
    isURLMatching (patternOf segs) url = some (capturesFrom [] segs, true) := by
  rw [isURLMatching_append_slash _ url l hl hne, hu]
  exact isURLMatching_segments segs hok hlast

theorem Params.get_set (m : Params) (k v q : Str) :
    (m.set k v).get q = if q = k then some v else m.get q := by
  unfold Params.set Params.get
  by_cases e : q = k
  · have e2 : (q == k) = true := by simpa using e
    rw [if_pos e, List.lookup, e2]
  · have e2 : (q == k) = false := by simpa using e
    rw [if_neg e, List.lookup, e2]
    induction m with
    | nil => rfl
    | cons x m ih =>
      obtain ⟨a, w⟩ := x
      by_cases hak : a = k
      · have hqa : (q == a) = false := by rw [hak]; exact e2
        rw [List.filter_cons_of_neg (by simpa using hak), ih, List.lookup, hqa]
      · rw [List.filter_cons_of_pos (by simpa using hak)]
        by_cases hqa : q = a
        · have hqa2 : (q == a) = true := by simpa using hqa
          rw [List.lookup, hqa2, List.lookup, hqa2]
        · have hqa2 : (q == a) = false := by simpa using hqa
          rw [List.lookup, hqa2, List.lookup, hqa2]
          exact ih

/-- A key that is not the name of a capture keeps its value. -/
theorem capturesFrom_get_of_not_mem (segs : List PSeg) : ∀ (m : Params) (q : Str),
    q ∉ captureNames segs → (capturesFrom m segs).get q = m.get q := by
  induction segs with
  | nil => intro m q _; rfl
  | cons seg rest ih =>
    intro m q hq
    cases seg with
    | lit s => exact ih m q hq
    | cap name value =>
      have h1 : q ≠ name := fun e => hq (by simp [captureNames, e])
      have h2 : q ∉ captureNames rest := fun e => hq (by simp [captureNames, e])
      show (capturesFrom (m.set name value) rest).get q = _
      rw [ih _ q h2, Params.get_set, if_neg h1]

/-- With distinct names every capture is found under its name with its value. -/
theorem capturesFrom_get (segs : List PSeg) : ∀ (m : Params) (name value : Str),
    (captureNames segs).Nodup → PSeg.cap name value ∈ segs →
    (capturesFrom m segs).get name = some value := by
  induction segs with
  | nil => intro m name value _ h; simp at h
  | cons seg rest ih =>
    intro m name value hnd hmem
    cases seg with
    | lit s =>
      have : PSeg.cap name value ∈ rest := by
        rcases List.mem_cons.mp hmem with e | e
        · cases e
        · exact e
      exact ih m name value hnd this
    | cap n v =>
      have hnd2 : n ∉ captureNames rest ∧ (captureNames rest).Nodup := List.nodup_cons.mp hnd
      rcases List.mem_cons.mp hmem with e | e
      · cases e
        show (capturesFrom (m.set name value) rest).get name = _
        rw [capturesFrom_get_of_not_mem rest _ name hnd2.1, Params.get_set, if_pos rfl]
      · exact ih (m.set n v) name value hnd2.2 e

/-- `Params` has no keys but the names of the captures. -/
theorem capturesFrom_keys (segs : List PSeg) (q : Str) (v : Str)
    (h : (capturesFrom [] segs).get q = some v) : q ∈ captureNames segs := by
  by_contra hq
  rw [capturesFrom_get_of_not_mem segs [] q hq] at h
  simp [Params.get] at h

/-! ## Claims on literal patterns, the empty path and index safety -/

/-- C11 (fails on the code): the literal pattern `/a/` matches the path `/a//`,
which differs from it, and `Route` invokes its handler; the literal pattern
`/a//b/` matches the path `/a/`.  The cursor stops on the last byte of the
pattern, so the final test `path[i] == b` does not tell whether pattern and
path were exhausted together. -/
theorem C11_literal_matches_other_paths {σ : Type} (h : HandlerFunc σ) (s : σ) :
    str "/a//" ≠ str "/a/" ∧
    isURLMatching (str "/a/") (str "/a//") = some ([], true) ∧
    (Route (HandleFunc NewRouter (str "/a/") h) s { URLPath := str "/a//" }).invoked
      = [(str "/a/", [])] ∧
    isURLMatching (str "/a//b/") (str "/a/") = some ([], true) := by
  have hm : isURLMatching (normalize (str "/a/")) (str "/a//") = some ([], true) := by decide
  have hr := Route_single_match (str "/a/") (str "/a//") h s [] hm
  have hn : normalize (str "/a/") = str "/a/" := by decide
  rw [hn] at hr
  exact ⟨by decide, by decide, hr.1, by decide⟩

/-- C12 (fails on the code): on the empty request path the matcher panics at
`url[len(url)-1]` for the pattern `/`, while on the path `/` it reports a
match; `Route` panics on the empty path and invokes the handler on `/`. -/
theorem C12_empty_path_panics {σ : Type} (h : HandlerFunc σ) (s : σ) :
    isURLMatching (str "/") (str "") = none ∧
    isURLMatching (str "/") (str "" ++ str "/") = some ([], true) ∧
    (Route (HandleFunc NewRouter (str "/") h) s { URLPath := str "" }).fault = true ∧
    (Route (HandleFunc NewRouter (str "/") h) s { URLPath := str "" }).invoked = [] ∧
    (Route (HandleFunc NewRouter (str "/") h) s { URLPath := str "" ++ str "/" }).invoked
      = [(str "/", [])] := by
  have hm0 : isURLMatching (normalize (str "/")) (str "") = none := by decide
  have hm1 : isURLMatching (normalize (str "/")) (str "" ++ str "/") = some ([], true) := by
    decide
  have h0 := Route_single_fault (str "/") (str "") h s hm0
  have h1 := Route_single_match (str "/") (str "" ++ str "/") h s [] hm1
  have hn : normalize (str "/") = str "/" := by decide
  rw [hn] at h1
  exact ⟨by decide, by decide, h0.2, h0.1, h1.1⟩

theorem cursorReads_ok (path : Str) (hlast : path.getLast? = some slash) (url : Str) :
    ∀ st : MatchState, CursorOk path st →
      ∀ i ∈ cursorReads path url st, 0 ≤ i ∧ i ≤ (path.length : Int) - 1 := by
  induction url with
  | nil =>
    intro st h i hi
    simp only [cursorReads, List.mem_singleton] at hi
    rw [hi]
    exact ⟨h.1, h.2.1⟩
  | cons x url ih =>
    intro st h i hi
    rw [cursorReads, List.mem_cons] at hi
    rcases hi with hi | hi
    · have := slashBlock_ok path st x h
      rw [hi]
      exact ⟨this.1, this.2.1⟩
    · rcases matchStep_ok path st x hlast h with ⟨st2, e, h2⟩ | ⟨ps, e⟩
      · rw [e] at hi
        exact ih st2 h2 i hi
      · rw [e] at hi
        simp at hi

/-- C18: for every pattern that begins and ends with `'/'` and every non-empty
request path, `isURLMatching` returns (no read of the pattern or of the path is
out of range), and at every read `path[cur]` of the loop, and at the final
read `path[i]`, the cursor is between `0` and `len(path) - 1`. -/
theorem C18_index_safety (path url : Str) (hhead : path.head? = some slash)
    (hlast : path.getLast? = some slash) (hu : url ≠ []) :
    (∃ params ok, isURLMatching path url = some (params, ok)) ∧
    (∀ i ∈ cursorReads path (if url.getLast? ≠ some slash then url ++ [slash] else url)
        MatchState.init, 0 ≤ i ∧ i ≤ (path.length : Int) - 1) := by
  constructor
  · obtain ⟨⟨params, ok⟩, e⟩ := isURLMatching_ok path url (Or.inr ⟨hhead, hlast⟩) hu
    exact ⟨params, ok, e⟩
  · have hpos : 0 < path.length := by
      have : path ≠ [] := by intro e; rw [e] at hhead; exact absurd hhead (by simp)
      exact List.length_pos.mpr this
    exact cursorReads_ok path hlast _ MatchState.init
      ⟨le_refl _, by show (0 : Int) ≤ (path.length : Int) - 1; omega,
        fun h => absurd h (by decide)⟩

/-- C18 at the pattern `/a/:x/c/` and the path `/a/b/c`. -/
theorem C18_index_safety_witness :
    (∃ params ok, isURLMatching (str "/a/:x/c/") (str "/a/b/c") = some (params, ok)) ∧
    (∀ i ∈ cursorReads (str "/a/:x/c/")
        (if (str "/a/b/c").getLast? ≠ some slash then str "/a/b/c" ++ [slash] else str "/a/b/c")
        MatchState.init, 0 ≤ i ∧ i ≤ ((str "/a/:x/c/").length : Int) - 1) :=
  C18_index_safety (str "/a/:x/c/") (str "/a/b/c") (by decide) (by decide) (by decide)

/-! ## Claims on captures and wildcard segments -/

/-- C16 (fails on the code): the pattern `/a/:x/c/` against the path `/a/é/c`
(the segment `é` is the two bytes `0xC3 0xA9`) matches, but `Params` maps `x` to
the four bytes `0xC3 0x83 0xC2 0xA9`, not to the substituted segment: the value
is built by `value += string(b)` on a byte `b`, which appends the UTF-8
encoding of the code point `b`.  The name is built the same way, so the
capture `:é` is stored under another key.  On the ASCII path `/a/b/c` the
result is `x = b`. -/
theorem C16_capture_bytes_converted :
    [47, 97, 47, 195, 169, 47, 99] = str "/a/" ++ [195, 169] ++ str "/c" ∧
    isURLMatching (str "/a/:x/c/") [47, 97, 47, 195, 169, 47, 99]
      = some ([(str "x", [195, 131, 194, 169])], true) ∧
    [195, 131, 194, 169] ≠ [195, 169] ∧
    isURLMatching (str "/" ++ colon :: [195, 169] ++ str "/c/") (str "/v/c")
      = some ([([195, 131, 194, 169], str "v")], true) ∧
    isURLMatching (str "/a/:x/c/") (str "/a/b/c") = some ([(str "x", str "b")], true) := by
  decide

/-- C17: for a literal prefix `lit` (it begins and ends with `'/'` and has
neither `':'` nor `'*'`) `HandleFunc` stores `lit ++ "*/"` for `lit ++ "*"`, and
on the path `lit` followed by `k >= 1` non-empty segments without `'/'`,
joined by `'/'`, this pattern reports a match exactly when `k = 1`, with empty
`Params`. -/
theorem C17_wildcard_one_segment (lit : Str) (segs : List Str)
    (hhead : lit.head? = some slash) (_hlast : lit.getLast? = some slash)
    (hc : colon ∉ lit) (hs : star ∉ lit) (hne : segs ≠ [])
    (hseg : ∀ s ∈ segs, s ≠ [] ∧ slash ∉ s) :
    normalize (lit ++ str "*") = lit ++ str "*/" ∧
    isURLMatching (lit ++ str "*/") (lit ++ inter segs)
      = some ([], decide (segs.length = 1)) := by
  refine ⟨?_, isURLMatching_star_slash lit segs hc hs hne hseg⟩
  obtain ⟨x, t, rfl⟩ : ∃ x t, lit = x :: t := by
    cases lit with
    | nil => simp at hhead
    | cons x t => exact ⟨x, t, rfl⟩
  have hx : x = slash := by simpa using hhead
  subst hx
  have h0 : slash :: t ++ str "*" ≠ [] := by simp
  have hw : slash :: t ++ str "*" ≠ wildcard := by
    intro e
    have h1 : (slash :: t ++ str "*").head? = wildcard.head? := by rw [e]
    exact absurd h1 (by simp [wildcard])
  have hl : (slash :: t ++ str "*").getLast? = some star := by
    show (slash :: t ++ [star]).getLast? = some star
    exact List.getLast?_concat _
  rw [normalize_eq _ h0 hw, hl]
  simp [str]

/-- C17 at the prefix `/files/` with one segment and with two segments. -/
theorem C17_wildcard_one_segment_witness :
    (normalize (str "/files/" ++ str "*") = str "/files/" ++ str "*/" ∧
      isURLMatching (str "/files/" ++ str "*/") (str "/files/" ++ inter [str "a"])
        = some ([], decide ([str "a"].length = 1))) ∧
    (normalize (str "/files/" ++ str "*") = str "/files/" ++ str "*/" ∧
      isURLMatching (str "/files/" ++ str "*/") (str "/files/" ++ inter [str "a", str "b"])
        = some ([], decide ([str "a", str "b"].length = 1))) :=
  ⟨C17_wildcard_one_segment (str "/files/") [str "a"] (by decide) (by decide) (by decide)
      (by decide) (by decide) (by decide),
    C17_wildcard_one_segment (str "/files/") [str "a", str "b"] (by decide) (by decide)
      (by decide) (by decide) (by decide) (by decide)⟩

end Onebone
